import Mathlib

/-!
# htpasswd: a verification development for `htpasswd.go`

The Go package reads an htpasswd file of bcrypt entries into a map and answers
authentication requests against it.  This file embeds the package in Lean:

* a Go `string` is the list of its characters (the file is taken to be valid UTF-8
  text; byte lengths are recovered with `RuneLen`);
* the library calls the package makes (`regexp.MatchString`, `strings.TrimSpace`,
  `strings.SplitN`, `bufio.Scanner` with its default line splitter and buffer limit,
  `os.Open`, `os.Stat`, `bcrypt.CompareHashAndPassword`) are modelled after their
  documented behaviour; the file system and the bcrypt primitive are parameters;
* a method with a pointer receiver returns its result together with the receiver
  after the call; the mutex is not modelled (the embedding is sequential);
* a run-time panic of the Go program is an explicit outcome.
-/

namespace Htpasswd

/-- A Go string. -/
abbrev Str := List Char

/-! ## `regexp`: syntax and matching -/

/-- One-character items of a pattern: a literal, a bracket class given by its ranges
(a single character `c` of a class is the range `c-c`), or the dot without the `s` flag. -/
inductive CharClass where
  | lit (c : Char)
  | cls (ranges : List (Char × Char))
  | anyNotNL
  | any
  deriving DecidableEq, Repr

/-- Whether a character belongs to a one-character item. -/
def CharClass.test : CharClass → Char → Bool
  | .lit a, c => c == a
  | .cls ranges, c => ranges.any fun r => decide (r.1 ≤ c) && decide (c ≤ r.2)
  | .anyNotNL, c => c != '\n'
  | .any, _ => true

/-- Regular expressions without anchors. -/
inductive Regex where
  | fail
  | eps
  | sym (k : CharClass)
  | alt (r s : Regex)
  | cat (r s : Regex)
  | star (r : Regex)
  deriving DecidableEq, Repr

namespace Regex

/-- The pattern `r+`. -/
def plus (r : Regex) : Regex := cat r (star r)

/-- The pattern `r{n}`. -/
def rep (r : Regex) : Nat → Regex
  | 0 => eps
  | n + 1 => cat r (rep r n)

/-- The concatenation of a list of patterns. -/
def seq : List Regex → Regex
  | [] => eps
  | r :: rs => cat r (seq rs)

/-- Whether the pattern matches the empty string. -/
def nullable : Regex → Bool
  | fail => false
  | eps => true
  | sym _ => false
  | alt r s => r.nullable || s.nullable
  | cat r s => r.nullable && s.nullable
  | star _ => true

/-- The derivative of a pattern by a character: what remains to be matched after it. -/
def deriv : Regex → Char → Regex
  | fail, _ => fail
  | eps, _ => fail
  | sym k, c => if k.test c then eps else fail
  | alt r s, c => alt (r.deriv c) (s.deriv c)
  | cat r s, c => if r.nullable then alt (cat (r.deriv c) s) (s.deriv c) else cat (r.deriv c) s
  | star r, c => cat (r.deriv c) (star r)

/-- Whether the whole string is matched by the pattern. -/
def rmatch : Regex → Str → Bool
  | r, [] => r.nullable
  | r, c :: cs => (r.deriv c).rmatch cs

/-- The strings a pattern denotes. -/
def Matches : Regex → Str → Prop
  | fail, _ => False
  | eps, s => s = []
  | sym k, s => ∃ c, s = [c] ∧ k.test c = true
  | alt r q, s => Matches r s ∨ Matches q s
  | cat r q, s => ∃ u v, s = u ++ v ∧ Matches r u ∧ Matches q v
  | star r, s => ∃ ws : List Str, s = ws.flatten ∧ ∀ w ∈ ws, Matches r w

end Regex

/-- A compiled `*regexp.Regexp`: a pattern with an optional `^` in front and an optional `$`
at the end (no flags, so `$` is the end of the text). -/
structure Regexp where
  anchoredStart : Bool
  body : Regex
  anchoredEnd : Bool

/-- The method `(*Regexp).MatchString`: whether the string contains a match of the pattern. -/
def Regexp.MatchString (re : Regexp) (s : Str) : Bool :=
  let r₁ := if re.anchoredStart then re.body else Regex.cat (Regex.star (Regex.sym .any)) re.body
  let r₂ := if re.anchoredEnd then r₁ else Regex.cat r₁ (Regex.star (Regex.sym .any))
  r₂.rmatch s

/-- The class `[a-zA-Z]`. -/
def clsAlpha : CharClass := .cls [('a', 'z'), ('A', 'Z')]

/-- The class `[a-zA-Z0-9_-]`. -/
def clsUser : CharClass := .cls [('a', 'z'), ('A', 'Z'), ('0', '9'), ('_', '_'), ('-', '-')]

/-- The class `[aby]`. -/
def clsAby : CharClass := .cls [('a', 'a'), ('b', 'b'), ('y', 'y')]

/-- The class `[0-9]`. -/
def clsDigit : CharClass := .cls [('0', '9')]

/-- The class `[A-Za-z0-9./]`. -/
def clsHash : CharClass := .cls [('A', 'Z'), ('a', 'z'), ('0', '9'), ('.', '.'), ('/', '/')]

/-- Regexp for the 2a, 2b, or 2y bcrypt specifications:
`^[a-zA-Z]+[a-zA-Z0-9_-]*:\$2[aby]\$[0-9]{2}\$[A-Za-z0-9./]{53}$`. -/
def bexp : Regexp where
  anchoredStart := true
  body := Regex.seq [
    Regex.plus (.sym clsAlpha),
    Regex.star (.sym clsUser),
    .sym (.lit ':'),
    .sym (.lit '$'),
    .sym (.lit '2'),
    .sym clsAby,
    .sym (.lit '$'),
    Regex.rep (.sym clsDigit) 2,
    .sym (.lit '$'),
    Regex.rep (.sym clsHash) 53]
  anchoredEnd := true

/-- Regexp for comment lines: `^#.*$`. -/
def cexp : Regexp where
  anchoredStart := true
  body := Regex.seq [.sym (.lit '#'), Regex.star (.sym .anyNotNL)]
  anchoredEnd := true

/-- The function `isValidLine` checks for a match against the supplied regular expression. -/
def isValidLine (r : Regexp) (line : Str) : Bool :=
  r.MatchString line

/-! ## `unicode`, `utf8` and `strings` -/

/-- The function `unicode.IsSpace`: the characters with the Unicode White Space property. -/
def IsSpace (c : Char) : Bool :=
  let n := c.toNat
  (decide (9 ≤ n) && decide (n ≤ 13)) || n == 0x20 || n == 0x85 || n == 0xA0 || n == 0x1680 ||
    (decide (0x2000 ≤ n) && decide (n ≤ 0x200A)) || n == 0x2028 || n == 0x2029 ||
    n == 0x202F || n == 0x205F || n == 0x3000

/-- The function `strings.TrimSpace`: the string without its leading and trailing white space. -/
def TrimSpace (s : Str) : Str :=
  (s.dropWhile IsSpace).rdropWhile IsSpace

/-- The function `utf8.RuneLen`: the number of bytes in the UTF-8 encoding of a character. -/
def RuneLen (c : Char) : Nat :=
  let n := c.toNat
  if n < 0x80 then 1 else if n < 0x800 then 2 else if n < 0x10000 then 3 else 4

/-- The builtin `len` on a string: its length in bytes. -/
def len (s : Str) : Nat :=
  (s.map RuneLen).sum

/-- The function `strings.Cut` for a one-character separator: the text before and after the
first occurrence of the separator, if there is one. -/
def Cut (sep : Char) : Str → Option (Str × Str)
  | [] => none
  | c :: cs => if c = sep then some ([], cs) else (Cut sep cs).map fun p => (c :: p.1, p.2)

/-- The function `strings.SplitN` for a one-character separator and a count `n ≥ 0`: at most
`n` substrings, the last one being the unsplit remainder. -/
def SplitN (s : Str) (sep : Char) : Nat → List Str
  | 0 => []
  | 1 => [s]
  | n + 2 =>
    match Cut sep s with
    | none => [s]
    | some (a, b) => a :: SplitN b sep (n + 1)

/-! ## `bufio.Scanner` with the default split function `ScanLines` -/

/-- The constant `bufio.MaxScanTokenSize`: the size of the largest buffer of a Scanner. -/
def MaxScanTokenSize : Nat := 64 * 1024

/-- The function `dropCR` drops a terminal carriage return from the data. -/
def dropCR (data : Str) : Str :=
  if data.getLast? = some '\r' then data.dropLast else data

/-- The lines of a text: the pieces between newlines, the last one possibly without its newline;
nothing follows a final newline. -/
def rawLines : Str → List Str
  | [] => []
  | c :: cs =>
    if c = '\n' then [] :: rawLines cs
    else
      match rawLines cs with
      | [] => [[c]]
      | l :: ls => (c :: l) :: ls

/-- The tokens `scanner.Text()` takes while `scanner.Scan()` is true: the lines in order, each
without its end-of-line marker.  A line that does not fit the buffer (`MaxScanTokenSize` bytes,
the newline included when the buffer has to hold it) makes `Scan` return false for good, with the
error kept in `scanner.Err()`. -/
def scanLines (content : Str) : List Str :=
  ((rawLines content).takeWhile fun l => decide (len l < MaxScanTokenSize)).map dropCR

/-! ## Errors, outcomes and the file system -/

/-- Values of the interface `error` that the package meets. -/
inductive Error where
  | PathError (op : Str) (path : Str) (errno : Nat)
  | errorString (s : Str)
  deriving DecidableEq, Repr

/-- The function `fmt.Errorf` with the format `"Invalid line found: %s"`. -/
def Errorf (line : Str) : Error :=
  .errorString ("Invalid line found: ".toList ++ line)

/-- How a call ends: with a value and a nil error, with a non-nil error (and a nil value), or
with a run-time panic. -/
inductive Outcome (α : Type) where
  | ok (a : α)
  | err (e : Error)
  | panic
  deriving DecidableEq, Repr

/-- What `os.Stat` reports of a file: here the modification time (in nanoseconds of Unix time)
and the size in bytes. -/
structure FileInfo where
  ModTime : Int
  Size : Int
  deriving DecidableEq, Repr

/-- The function `time.Unix`. -/
def Unix (sec nsec : Int) : Int := sec * 1000000000 + nsec

/-- The file system as the package sees it at some moment: `filepath.Abs`, `os.Open` followed by
reading the stream to its end, and `os.Stat`. -/
structure FileSystem where
  Abs : Str → Str
  Open : Str → Except Error Str
  Stat : Str → Except Error FileInfo

/-! ## The package -/

/-- The type `map[string]string`, as the list of its entries, one for each key. -/
abbrev Users := List (Str × Str)

/-- The index expression `m[k]`: the value of the key, the empty string when the key is absent. -/
def mapIndex (m : Users) (k : Str) : Str :=
  (m.lookup k).getD []

/-- The comma-ok form `_, exist := m[k]`. -/
def mapHas (m : Users) (k : Str) : Bool :=
  (m.lookup k).isSome

/-- The assignment `m[k] = v`. -/
def mapAssign (m : Users) (k v : Str) : Users :=
  (k, v) :: m.filter fun e => e.1 != k

/-- A File reads htpasswd files and provides authentication. -/
structure File where
  CheckInterval : Int
  lastModified : Int
  lastSize : Int
  path : Str
  users : Users
  deriving DecidableEq, Repr

/-- The method `Authenticate` checks a user and password against the hashed value in the users
map; `compare` is `bcrypt.CompareHashAndPassword`, which returns nil (`none`) on success. -/
def Authenticate (compare : Str → Str → Option Error) (h : File) (u p : Str) : Bool × File :=
  let err := compare (mapIndex h.users u) p
  (err.isNone, h)

/-- The loop of `readFile` over the scanned lines, from the map built so far.  The index
expressions `user[0]` and `user[1]` panic when the slice is too short. -/
def readLoop : List Str → Users → Outcome Users
  | [], users => .ok users
  | text :: rest, users =>
    let line := TrimSpace text
    if line = [] || isValidLine cexp line then
      readLoop rest users
    else if isValidLine bexp line then
      let user := SplitN line ':' 2
      match user[0]?, user[1]? with
      | some name, some hash => readLoop rest (mapAssign users name hash)
      | _, _ => .panic
    else
      .err (Errorf line)

/-- The method `readFile` reads in the htpasswd file and populates the users map and the
lastModified fields of the File struct.  The loop ends when `scanner.Scan()` is false, and
`scanner.Err()` is not consulted.  The error of `os.Stat` is not tested: when it is non-nil the
FileInfo is nil and the call `stat.ModTime()` panics, before any field is assigned. -/
def readFile (fs : FileSystem) (h : File) : Outcome Unit × File :=
  match fs.Open h.path with
  | .error err => (.err err, h)
  | .ok content =>
    match readLoop (scanLines content) [] with
    | .err err => (.err err, h)
    | .panic => (.panic, h)
    | .ok users =>
      match fs.Stat h.path with
      | .error _ => (.panic, h)
      | .ok stat =>
        (.ok (), { h with lastModified := stat.ModTime, lastSize := stat.Size, users := users })

/-- The function `Open` returns a new File populated with users from the specified htpasswd
file path. -/
def Open (fs : FileSystem) (p : Str) : Outcome File :=
  let h : File :=
    { CheckInterval := 0, lastModified := Unix 0 0, lastSize := 0, path := fs.Abs p, users := [] }
  match readFile fs h with
  | (.ok _, h) => .ok h
  | (.err err, _) => .err err
  | (.panic, _) => .panic

/-- The method `Reload` checks the modification time of the htpasswd file and reads the file in
again if it has changed; `fs₀` answers its own `os.Stat`, `fs` the calls of `readFile`. -/
def Reload (fs₀ fs : FileSystem) (h : File) : Outcome Unit × File :=
  match fs₀.Stat h.path with
  | .error err => (.err err, h)
  | .ok stat =>
    if stat.ModTime != h.lastModified || stat.Size != h.lastSize then
      match readFile fs h with
      | (.err err, h) => (.err err, h)
      | (.panic, h) => (.panic, h)
      | (.ok _, h) => (.ok (), h)
    else
      (.ok (), h)

/-! ## The two grammars, as the specification words them -/

/-- An alphabetic character, `a–z` or `A–Z`. -/
def isLetter (c : Char) : Bool :=
  (decide ('a' ≤ c) && decide (c ≤ 'z')) || (decide ('A' ≤ c) && decide (c ≤ 'Z'))

/-- A decimal digit. -/
def isDigit (c : Char) : Bool :=
  decide ('0' ≤ c) && decide (c ≤ '9')

/-- A character of a username after the first: alphanumeric, underscore or hyphen. -/
def isUserChar (c : Char) : Bool :=
  isLetter c || isDigit c || c == '_' || c == '-'

/-- A character of the hash payload, drawn from `[A-Za-z0-9./]`. -/
def isHashChar (c : Char) : Bool :=
  isLetter c || isDigit c || c == '.' || c == '/'

/-- The username grammar: one leading alphabetic character, followed by zero or more
alphanumeric characters, underscores or hyphens. -/
def UsernameGrammar (u : Str) : Prop :=
  ∃ c us, u = c :: us ∧ isLetter c = true ∧ ∀ a ∈ us, isUserChar a = true

/-- The hash grammar: a recognized hash tag, `$2a$`, `$2b$` or `$2y$`, followed by exactly
two digits, a `$`, then exactly 53 characters drawn from `[A-Za-z0-9./]`. -/
def HashGrammar (v : Str) : Prop :=
  ∃ tag ds payload, v = tag ++ ds ++ '$' :: payload ∧
    (tag = "$2a$".toList ∨ tag = "$2b$".toList ∨ tag = "$2y$".toList) ∧
    (ds.length = 2 ∧ ∀ a ∈ ds, isDigit a = true) ∧
    (payload.length = 53 ∧ ∀ a ∈ payload, isHashChar a = true)

/-- The credential-line grammar: a username, a single `:`, a hash, and nothing else. -/
def CredentialGrammar (s : Str) : Prop :=
  ∃ u v, s = u ++ ':' :: v ∧ UsernameGrammar u ∧ HashGrammar v

/-- The comment grammar on a line: the line begins with `#`. -/
def CommentGrammar (s : Str) : Prop :=
  s.head? = some '#'

/-! ## What a file says, as the specification words it -/

/-- A trimmed line carries the pair `(u, v)`: it is a valid credential line and reads `u:v`. -/
def Carries (line u v : Str) : Prop :=
  isValidLine bexp line = true ∧ line = u ++ ':' :: v

/-- The pair `(u, v)` is on the last of the lines that carry the username `u`. -/
def LastCarries (lines : List Str) (u v : Str) : Prop :=
  ∃ pre l post, lines = pre ++ l :: post ∧ Carries l u v ∧ ∀ l' ∈ post, ∀ v', ¬ Carries l' u v'

/-- A line of a well-formed file: after trimming it is empty, a comment, or a valid credential
line. -/
def wellFormedLine (l : Str) : Bool :=
  TrimSpace l == [] || isValidLine cexp (TrimSpace l) || isValidLine bexp (TrimSpace l)

/-- A line that matches neither grammar: after trimming it is non-empty, not a comment and not
a credential line. -/
def invalidLine (l : Str) : Bool :=
  TrimSpace l != [] && !isValidLine cexp (TrimSpace l) && !isValidLine bexp (TrimSpace l)

/-- The map holds exactly the pairs of the credential lines, later lines overriding earlier
ones: the keys are the usernames some credential line carries, and the value of a key is the
hash on the last credential line with that username. -/
def ReadsExactly (lines : List Str) (users : Users) : Prop :=
  (∀ u, mapHas users u = true ↔ ∃ l ∈ lines, ∃ v, Carries (TrimSpace l) u v) ∧
  (∀ u v, users.lookup u = some v ↔ LastCarries (lines.map TrimSpace) u v)

/-! ## Example files -/

/-- The first line of the test data, a 2a entry for `example1`. -/
def exampleLine1 : Str :=
  "example1:$2a$10$3cz0nlM0jWIAs1wXcBu7XuLJjNg9Mz36RSExfwSW.0rs.xPs2Gghu".toList

/-- The second line of the test data, a 2y entry for `example2`. -/
def exampleLine2 : Str :=
  "example2:$2y$05$Vdk6E1bKMHVG.t0SLw5yiO224pZyGC27TcDCPPx3gmyf7us3X8yNa".toList

/-- The hash on `exampleLine1`. -/
def exampleHash1 : Str :=
  "$2a$10$3cz0nlM0jWIAs1wXcBu7XuLJjNg9Mz36RSExfwSW.0rs.xPs2Gghu".toList

/-- The hash on `exampleLine2`. -/
def exampleHash2 : Str :=
  "$2y$05$Vdk6E1bKMHVG.t0SLw5yiO224pZyGC27TcDCPPx3gmyf7us3X8yNa".toList

/-- A line that matches neither grammar. -/
def garbageLine : Str :=
  "That really should not happen".toList

/-- A comment line of `n + 1` bytes: a `#` followed by `n` letters `x`. -/
def longComment (n : Nat) : Str :=
  '#' :: List.replicate n 'x'

/-- A file with a comment, a blank line and the two entries of the test data, the first one
with a carriage return before its newline. -/
def validContent : Str :=
  "# users\n\n".toList ++ exampleLine1 ++ "\r\n  ".toList ++ exampleLine2 ++ "\n".toList

/-- A file whose first line is a comment of 65536 bytes, followed by a valid entry. -/
def longCommentThenEntry : Str :=
  longComment 65535 ++ '\n' :: exampleLine1

/-- A file with a valid entry, then a comment of 65536 bytes, then a line that matches neither
grammar. -/
def entryLongCommentGarbage : Str :=
  exampleLine1 ++ '\n' :: (longComment 65535 ++ '\n' :: garbageLine)

/-- The path of the example file. -/
def examplePath : Str :=
  "/etc/htpasswd".toList

/-- The error of a system call on a file that does not exist (`ENOENT`). -/
def notExist (op path : Str) : Error :=
  .PathError op path 2

/-- A file system with one readable file, at `examplePath`, with the given content and
metadata; paths are taken as absolute. -/
def oneFile (content : Str) (stat : FileInfo) : FileSystem where
  Abs := id
  Open := fun p => if p = examplePath then .ok content else .error (notExist "open".toList p)
  Stat := fun p => if p = examplePath then .ok stat else .error (notExist "stat".toList p)

/-- A file system without any file. -/
def noFile : FileSystem where
  Abs := id
  Open := fun p => .error (notExist "open".toList p)
  Stat := fun p => .error (notExist "stat".toList p)

/-- A file system in which the example file can be opened and read but is gone when `os.Stat`
is called (the file was removed in between). -/
def vanishingFile (content : Str) : FileSystem where
  Abs := id
  Open := fun p => if p = examplePath then .ok content else .error (notExist "open".toList p)
  Stat := fun p => .error (notExist "stat".toList p)

/-- The File that `Open` builds from `validContent` with the given metadata. -/
def exampleFile (stat : FileInfo) : File where
  CheckInterval := 0
  lastModified := stat.ModTime
  lastSize := stat.Size
  path := examplePath
  users := [("example2".toList, exampleHash2), ("example1".toList, exampleHash1)]

/-- A stand-in for `bcrypt.CompareHashAndPassword` that accepts the password `secret` for the
two example hashes and nothing else. -/
def compareStub (hash password : Str) : Option Error :=
  if (hash = exampleHash1 ∨ hash = exampleHash2) ∧ password = "secret".toList then none
  else some (.errorString "crypto/bcrypt: hashedPassword is not the hash of the given password".toList)

/-! ## Reachable states, valid entries and padded lines -/

/-- An entry of the map whose key matches the username grammar and whose value matches the
hash grammar. -/
def ValidEntry (e : Str × Str) : Prop :=
  UsernameGrammar e.1 ∧ HashGrammar e.2

/-- The File states a program reaches: the File of a successful `Open`, and from there the File
after any call of `Reload` or `Authenticate`, against any state of the file system. -/
inductive Reachable : File → Prop where
  | opened (fs : FileSystem) (p : Str) (h : File) (hok : Open fs p = .ok h) : Reachable h
  | reloaded (fs₀ fs : FileSystem) (h : File) (hr : Reachable h) : Reachable (Reload fs₀ fs h).2
  | authenticated (compare : Str → Str → Option Error) (h : File) (u p : Str)
      (hr : Reachable h) : Reachable (Authenticate compare h u p).2

/-- A space, a tab or a carriage return. -/
def isPadding (c : Char) : Bool :=
  c == ' ' || c == '\t' || c == '\r'

/-- Two lines that differ only by spaces, tabs and carriage returns at their start and their
end: both are one text with such characters around it. -/
def SameUpToPadding (l l' : Str) : Prop :=
  ∃ core a b a' b', (∀ c ∈ a ++ b ++ a' ++ b', isPadding c = true) ∧
    l = a ++ core ++ b ∧ l' = a' ++ core ++ b'

/-- Two file contents with the same number of lines, corresponding lines differing only by
padding at their start and their end. -/
def PaddedAlike (content content' : Str) : Prop :=
  List.Forall₂ SameUpToPadding (rawLines content) (rawLines content')

/-- The File that `Open` starts from, for the example path. -/
def initialFile : File where
  CheckInterval := 0
  lastModified := Unix 0 0
  lastSize := 0
  path := examplePath
  users := []

/-- A file with a valid entry, then a padded line that matches neither grammar, then another
valid entry. -/
def entryGarbageEntry : Str :=
  exampleLine1 ++ "\n  ".toList ++ garbageLine ++ " \n".toList ++ exampleLine2

/-- An entry for `example3` with the hash of `exampleLine1`. -/
def exampleLine3 : Str :=
  "example3:$2a$10$3cz0nlM0jWIAs1wXcBu7XuLJjNg9Mz36RSExfwSW.0rs.xPs2Gghu".toList

/-- The file `validContent` with `example1` renamed to `example3`: another content of the same
size. -/
def renamedContent : Str :=
  "# users\n\n".toList ++ exampleLine3 ++ "\r\n  ".toList ++ exampleLine2 ++ "\n".toList

/-- The file `validContent` with other padding: CRLF line endings, a tab on the blank line,
the spaces moved from the second entry to the first, and padding after the second entry. -/
def repaddedContent : Str :=
  "# users\r\n\t\r\n  ".toList ++ exampleLine1 ++ "\n".toList ++ exampleLine2 ++ " \t\r\n".toList

/-- A file whose first line is a comment of 65535 bytes, the longest that fits the buffer,
followed by a valid entry. -/
def fullCommentThenEntry : Str :=
  longComment 65534 ++ '\n' :: exampleLine1

/-- The file `fullCommentThenEntry` with a carriage return added at the end of its first
line. -/
def fullCommentCRThenEntry : Str :=
  (longComment 65534 ++ ['\r']) ++ '\n' :: exampleLine1

/-! ## The matcher computes the denotation -/

namespace Regex

theorem nullable_iff (r : Regex) : r.nullable = true ↔ Matches r [] := by
  induction r with
  | fail => simp [nullable, Matches]
  | eps => simp [nullable, Matches]
  | sym k => simp [nullable, Matches]
  | alt r q ihr ihq => simp [nullable, Matches, ihr, ihq]
  | cat r q ihr ihq =>
    simp only [nullable, Matches, Bool.and_eq_true, ihr, ihq]
    constructor
    · rintro ⟨hr, hq⟩
      exact ⟨[], [], rfl, hr, hq⟩
    · rintro ⟨u, v, huv, hr, hq⟩
      obtain ⟨rfl, rfl⟩ := List.append_eq_nil.1 huv.symm
      exact ⟨hr, hq⟩
  | star r _ =>
    simp only [nullable, Matches, true_iff]
    exact ⟨[], rfl, by simp⟩

theorem matches_cat_cons (r q : Regex) (c : Char) (s : Str) :
    Matches (cat r q) (c :: s) ↔
      (Matches r [] ∧ Matches q (c :: s)) ∨ ∃ u v, s = u ++ v ∧ Matches r (c :: u) ∧ Matches q v := by
  simp only [Matches]
  constructor
  · rintro ⟨u, v, huv, hr, hq⟩
    cases u with
    | nil =>
      left
      simp only [List.nil_append] at huv
      subst huv
      exact ⟨hr, hq⟩
    | cons a u =>
      right
      simp only [List.cons_append, List.cons.injEq] at huv
      obtain ⟨rfl, rfl⟩ := huv
      exact ⟨u, v, rfl, hr, hq⟩
  · rintro (⟨hr, hq⟩ | ⟨u, v, rfl, hr, hq⟩)
    · exact ⟨[], c :: s, rfl, hr, hq⟩
    · exact ⟨c :: u, v, rfl, hr, hq⟩

theorem matches_star_cons (r : Regex) (c : Char) (s : Str) :
    Matches (star r) (c :: s) ↔ ∃ u v, s = u ++ v ∧ Matches r (c :: u) ∧ Matches (star r) v := by
  constructor
  · rintro ⟨ws, hws, hall⟩
    induction ws with
    | nil => simp at hws
    | cons w ws ih =>
      cases w with
      | nil =>
        simp only [List.flatten_cons, List.nil_append] at hws
        exact ih hws fun w hw => hall w (List.mem_cons_of_mem _ hw)
      | cons a u =>
        simp only [List.flatten_cons, List.cons_append, List.cons.injEq] at hws
        obtain ⟨rfl, rfl⟩ := hws
        exact ⟨u, ws.flatten, rfl, hall _ (List.mem_cons_self _ _),
          ws, rfl, fun w hw => hall w (List.mem_cons_of_mem _ hw)⟩
  · rintro ⟨u, v, rfl, hr, ws, rfl, hall⟩
    refine ⟨(c :: u) :: ws, by simp, ?_⟩
    intro w hw
    rcases List.mem_cons.1 hw with rfl | hw
    · exact hr
    · exact hall w hw

theorem deriv_iff (r : Regex) (c : Char) (s : Str) :
    Matches (r.deriv c) s ↔ Matches r (c :: s) := by
  induction r generalizing s with
  | fail => simp [deriv, Matches]
  | eps => simp [deriv, Matches]
  | sym k =>
    by_cases hk : k.test c = true
    · simp only [deriv, hk, if_true, Matches]
      constructor
      · rintro rfl
        exact ⟨c, rfl, hk⟩
      · rintro ⟨a, ha, _⟩
        simp only [List.cons.injEq] at ha
        exact ha.2
    · simp only [deriv, hk, Matches, false_iff, not_exists, not_and]
      intro a ha
      simp only [List.cons.injEq] at ha
      rw [← ha.1]
      exact hk
  | alt r q ihr ihq => simp [deriv, Matches, ihr, ihq]
  | cat r q ihr ihq =>
    rw [matches_cat_cons, ← nullable_iff]
    by_cases hn : r.nullable = true
    · simp only [deriv, hn, if_true, true_and]
      simp only [Matches, ihr, ihq]
      exact or_comm
    · simp only [deriv, hn, false_and, false_or]
      simp only [Matches, ihr]
      simp
  | star r ih =>
    rw [matches_star_cons]
    simp only [deriv, Matches, ih]

theorem rmatch_iff (r : Regex) (s : Str) : r.rmatch s = true ↔ Matches r s := by
  induction s generalizing r with
  | nil => simpa [rmatch] using nullable_iff r
  | cons c s ih => rw [rmatch, ih, deriv_iff]

/-- A starred one-character item matches the strings made of its characters. -/
theorem matches_star_sym (k : CharClass) (s : Str) :
    Matches (star (sym k)) s ↔ ∀ c ∈ s, k.test c = true := by
  induction s with
  | nil =>
    simp only [List.not_mem_nil, false_implies, implies_true, iff_true]
    exact ⟨[], rfl, by simp⟩
  | cons a s ih =>
    rw [matches_star_cons]
    constructor
    · rintro ⟨u, v, rfl, ⟨b, hb, hk⟩, hv⟩
      simp only [List.cons.injEq] at hb
      obtain ⟨rfl, rfl⟩ := hb
      simp only [List.nil_append] at ih
      intro c hc
      rcases List.mem_cons.1 hc with rfl | hc
      · exact hk
      · exact ih.1 hv c hc
    · intro h
      exact ⟨[], s, rfl, ⟨a, rfl, h a (List.mem_cons_self _ _)⟩,
        ih.2 fun c hc => h c (List.mem_cons_of_mem _ hc)⟩

/-- A one-character item in front of a pattern. -/
theorem matches_sym_cat (k : CharClass) (q : Regex) (s : Str) :
    Matches (cat (sym k) q) s ↔ ∃ c t, s = c :: t ∧ k.test c = true ∧ Matches q t := by
  simp only [Matches]
  constructor
  · rintro ⟨u, v, rfl, ⟨c, rfl, hk⟩, hq⟩
    exact ⟨c, v, rfl, hk, hq⟩
  · rintro ⟨c, t, rfl, hk, hq⟩
    exact ⟨[c], t, rfl, ⟨c, rfl, hk⟩, hq⟩

/-- A repeated one-character item matches the strings of that length made of its characters. -/
theorem matches_rep_sym (k : CharClass) (n : Nat) (s : Str) :
    Matches (rep (sym k) n) s ↔ s.length = n ∧ ∀ c ∈ s, k.test c = true := by
  induction n generalizing s with
  | zero =>
    simp only [rep, Matches, List.length_eq_zero]
    constructor
    · rintro rfl
      simp
    · exact fun h => h.1
  | succ n ih =>
    rw [rep, matches_sym_cat]
    constructor
    · rintro ⟨c, t, rfl, hk, hq⟩
      obtain ⟨hl, hall⟩ := (ih t).1 hq
      refine ⟨by simp [hl], ?_⟩
      intro a ha
      rcases List.mem_cons.1 ha with rfl | ha
      · exact hk
      · exact hall a ha
    · rintro ⟨hl, hall⟩
      cases s with
      | nil => simp at hl
      | cons c t =>
        refine ⟨c, t, rfl, hall c (List.mem_cons_self _ _), (ih t).2 ⟨by simpa using hl, ?_⟩⟩
        exact fun a ha => hall a (List.mem_cons_of_mem _ ha)

end Regex

/-! ## The patterns against the grammars -/

theorem test_lit (a c : Char) : (CharClass.lit a).test c = true ↔ c = a := by
  simp [CharClass.test]

theorem test_clsAlpha (c : Char) : clsAlpha.test c = isLetter c := by
  simp [CharClass.test, clsAlpha, isLetter]

theorem test_clsDigit (c : Char) : clsDigit.test c = isDigit c := by
  simp [CharClass.test, clsDigit, isDigit]

theorem test_clsUser (c : Char) : clsUser.test c = isUserChar c := by
  have h₁ : (decide ('_' ≤ c) && decide (c ≤ '_')) = (c == '_') := by
    rw [Bool.eq_iff_iff]
    simp only [Bool.and_eq_true, decide_eq_true_eq, beq_iff_eq]
    exact ⟨fun h => le_antisymm h.2 h.1, fun h => by subst h; exact ⟨le_refl _, le_refl _⟩⟩
  have h₂ : (decide ('-' ≤ c) && decide (c ≤ '-')) = (c == '-') := by
    rw [Bool.eq_iff_iff]
    simp only [Bool.and_eq_true, decide_eq_true_eq, beq_iff_eq]
    exact ⟨fun h => le_antisymm h.2 h.1, fun h => by subst h; exact ⟨le_refl _, le_refl _⟩⟩
  simp only [CharClass.test, clsUser, isUserChar, isLetter, isDigit, List.any_cons, List.any_nil,
    h₁, h₂, Bool.or_false, Bool.or_assoc]

theorem test_clsHash (c : Char) : clsHash.test c = isHashChar c := by
  have h₁ : (decide ('.' ≤ c) && decide (c ≤ '.')) = (c == '.') := by
    rw [Bool.eq_iff_iff]
    simp only [Bool.and_eq_true, decide_eq_true_eq, beq_iff_eq]
    exact ⟨fun h => le_antisymm h.2 h.1, fun h => by subst h; exact ⟨le_refl _, le_refl _⟩⟩
  have h₂ : (decide ('/' ≤ c) && decide (c ≤ '/')) = (c == '/') := by
    rw [Bool.eq_iff_iff]
    simp only [Bool.and_eq_true, decide_eq_true_eq, beq_iff_eq]
    exact ⟨fun h => le_antisymm h.2 h.1, fun h => by subst h; exact ⟨le_refl _, le_refl _⟩⟩
  rw [Bool.eq_iff_iff]
  simp only [CharClass.test, clsHash, isHashChar, isLetter, isDigit, List.any_cons, List.any_nil,
    h₁, h₂, Bool.or_false, Bool.or_eq_true]
  tauto

theorem test_clsAby (c : Char) : clsAby.test c = true ↔ c = 'a' ∨ c = 'b' ∨ c = 'y' := by
  have h (a : Char) : (decide (a ≤ c) && decide (c ≤ a)) = true ↔ c = a := by
    simp only [Bool.and_eq_true, decide_eq_true_eq]
    exact ⟨fun h => le_antisymm h.2 h.1, fun h => by subst h; exact ⟨le_refl _, le_refl _⟩⟩
  simp only [CharClass.test, clsAby, List.any_cons, List.any_nil, Bool.or_false, Bool.or_eq_true, h]

theorem isUserChar_of_isLetter {c : Char} (h : isLetter c = true) : isUserChar c = true := by
  simp [isUserChar, h]

/-- The body of `bexp`, piece by piece. -/
theorem bexp_body_iff (s : Str) :
    Regex.Matches bexp.body s ↔
      ∃ c t w x d p, s = (c :: t) ++ (w ++ (':' :: '$' :: '2' :: x :: '$' :: (d ++ '$' :: p))) ∧
        isLetter c = true ∧ (∀ a ∈ t, isLetter a = true) ∧ (∀ a ∈ w, isUserChar a = true) ∧
        (x = 'a' ∨ x = 'b' ∨ x = 'y') ∧ (d.length = 2 ∧ ∀ a ∈ d, isDigit a = true) ∧
        (p.length = 53 ∧ ∀ a ∈ p, isHashChar a = true) := by
  simp only [bexp, Regex.seq, Regex.plus]
  constructor
  · intro h
    obtain ⟨u₁, v₁, rfl, h₁, h₂⟩ := h
    obtain ⟨c, t, rfl, hc, ht⟩ := (Regex.matches_sym_cat _ _ _).1 h₁
    rw [Regex.matches_star_sym] at ht
    obtain ⟨w, v₂, rfl, hw, h₃⟩ := h₂
    rw [Regex.matches_star_sym] at hw
    obtain ⟨c₁, v₃, rfl, hc₁, h₄⟩ := (Regex.matches_sym_cat _ _ _).1 h₃
    obtain ⟨c₂, v₄, rfl, hc₂, h₅⟩ := (Regex.matches_sym_cat _ _ _).1 h₄
    obtain ⟨c₃, v₅, rfl, hc₃, h₆⟩ := (Regex.matches_sym_cat _ _ _).1 h₅
    obtain ⟨x, v₆, rfl, hx, h₇⟩ := (Regex.matches_sym_cat _ _ _).1 h₆
    obtain ⟨c₄, v₇, rfl, hc₄, h₈⟩ := (Regex.matches_sym_cat _ _ _).1 h₇
    obtain ⟨d, v₈, rfl, hd, h₉⟩ := h₈
    rw [Regex.matches_rep_sym] at hd
    obtain ⟨c₅, v₉, rfl, hc₅, h₁₀⟩ := (Regex.matches_sym_cat _ _ _).1 h₉
    obtain ⟨p, e, rfl, hp, he⟩ := h₁₀
    rw [Regex.matches_rep_sym] at hp
    simp only [Regex.Matches] at he
    subst he
    rw [test_lit] at hc₁ hc₂ hc₃ hc₄ hc₅
    subst hc₁ hc₂ hc₃ hc₄ hc₅
    rw [test_clsAlpha] at hc
    rw [test_clsAby] at hx
    refine ⟨c, t, w, x, d, p, by simp, hc, ?_, ?_, hx, ⟨hd.1, ?_⟩, ⟨hp.1, ?_⟩⟩
    · exact fun a ha => by rw [← test_clsAlpha]; exact ht a ha
    · exact fun a ha => by rw [← test_clsUser]; exact hw a ha
    · exact fun a ha => by rw [← test_clsDigit]; exact hd.2 a ha
    · exact fun a ha => by rw [← test_clsHash]; exact hp.2 a ha
  · rintro ⟨c, t, w, x, d, p, rfl, hc, ht, hw, hx, hd, hp⟩
    refine ⟨c :: t, _, rfl, ?_, w, _, rfl, ?_, ?_⟩
    · refine (Regex.matches_sym_cat _ _ _).2 ⟨c, t, rfl, by rw [test_clsAlpha]; exact hc, ?_⟩
      rw [Regex.matches_star_sym]
      exact fun a ha => by rw [test_clsAlpha]; exact ht a ha
    · rw [Regex.matches_star_sym]
      exact fun a ha => by rw [test_clsUser]; exact hw a ha
    · refine (Regex.matches_sym_cat _ _ _).2 ⟨_, _, rfl, (test_lit _ _).2 rfl, ?_⟩
      refine (Regex.matches_sym_cat _ _ _).2 ⟨_, _, rfl, (test_lit _ _).2 rfl, ?_⟩
      refine (Regex.matches_sym_cat _ _ _).2 ⟨_, _, rfl, (test_lit _ _).2 rfl, ?_⟩
      refine (Regex.matches_sym_cat _ _ _).2 ⟨_, _, rfl, (test_clsAby _).2 hx, ?_⟩
      refine (Regex.matches_sym_cat _ _ _).2 ⟨_, _, rfl, (test_lit _ _).2 rfl, ?_⟩
      refine ⟨d, _, rfl, ?_, ?_⟩
      · rw [Regex.matches_rep_sym]
        exact ⟨hd.1, fun a ha => by rw [test_clsDigit]; exact hd.2 a ha⟩
      · refine (Regex.matches_sym_cat _ _ _).2 ⟨_, _, rfl, (test_lit _ _).2 rfl, ?_⟩
        refine ⟨p, [], by simp, ?_, rfl⟩
        rw [Regex.matches_rep_sym]
        exact ⟨hp.1, fun a ha => by rw [test_clsHash]; exact hp.2 a ha⟩

/-- What `isValidLine(bexp, ·)` accepts, with the pieces of the line named. -/
theorem bexp_iff_parts (s : Str) :
    isValidLine bexp s = true ↔
      ∃ c us x d p, s = (c :: us) ++ ':' :: (('$' :: '2' :: x :: ['$']) ++ d ++ '$' :: p) ∧
        isLetter c = true ∧ (∀ a ∈ us, isUserChar a = true) ∧
        (x = 'a' ∨ x = 'b' ∨ x = 'y') ∧ (d.length = 2 ∧ ∀ a ∈ d, isDigit a = true) ∧
        (p.length = 53 ∧ ∀ a ∈ p, isHashChar a = true) := by
  have h₀ : isValidLine bexp s = bexp.body.rmatch s := rfl
  rw [h₀, Regex.rmatch_iff, bexp_body_iff]
  constructor
  · rintro ⟨c, t, w, x, d, p, rfl, hc, ht, hw, hx, hd, hp⟩
    refine ⟨c, t ++ w, x, d, p, by simp, hc, ?_, hx, hd, hp⟩
    intro a ha
    rcases List.mem_append.1 ha with ha | ha
    · exact isUserChar_of_isLetter (ht a ha)
    · exact hw a ha
  · rintro ⟨c, us, x, d, p, rfl, hc, hus, hx, hd, hp⟩
    exact ⟨c, [], us, x, d, p, by simp, hc, by simp, hus, hx, hd, hp⟩

/-- The pattern `bexp` accepts exactly the lines of the credential grammar. -/
theorem bexp_iff_grammar (s : Str) : isValidLine bexp s = true ↔ CredentialGrammar s := by
  rw [bexp_iff_parts]
  constructor
  · rintro ⟨c, us, x, d, p, rfl, hc, hus, hx, hd, hp⟩
    refine ⟨c :: us, _, rfl, ⟨c, us, rfl, hc, hus⟩, '$' :: '2' :: x :: ['$'], d, p, rfl, ?_, hd, hp⟩
    rcases hx with rfl | rfl | rfl
    · exact Or.inl rfl
    · exact Or.inr (Or.inl rfl)
    · exact Or.inr (Or.inr rfl)
  · rintro ⟨u, v, rfl, ⟨c, us, rfl, hc, hus⟩, tag, d, p, rfl, htag, hd, hp⟩
    rcases htag with rfl | rfl | rfl
    · exact ⟨c, us, 'a', d, p, rfl, hc, hus, Or.inl rfl, hd, hp⟩
    · exact ⟨c, us, 'b', d, p, rfl, hc, hus, Or.inr (Or.inl rfl), hd, hp⟩
    · exact ⟨c, us, 'y', d, p, rfl, hc, hus, Or.inr (Or.inr rfl), hd, hp⟩

/-- What `isValidLine(cexp, ·)` accepts: a `#` followed by anything without a newline. -/
theorem cexp_iff (s : Str) :
    isValidLine cexp s = true ↔ ∃ t, s = '#' :: t ∧ '\n' ∉ t := by
  have h₀ : isValidLine cexp s = cexp.body.rmatch s := rfl
  rw [h₀, Regex.rmatch_iff]
  simp only [cexp, Regex.seq]
  rw [Regex.matches_sym_cat]
  constructor
  · rintro ⟨c, t, rfl, hc, u, e, rfl, hu, he⟩
    rw [test_lit] at hc
    subst hc
    simp only [Regex.Matches] at he
    subst he
    rw [Regex.matches_star_sym] at hu
    refine ⟨u ++ [], rfl, ?_⟩
    intro hmem
    have := hu '\n' (by simpa using hmem)
    simp [CharClass.test] at this
  · rintro ⟨t, rfl, ht⟩
    refine ⟨'#', t, rfl, (test_lit _ _).2 rfl, t, [], by simp, ?_, rfl⟩
    rw [Regex.matches_star_sym]
    intro c hc
    simp only [CharClass.test, bne_iff_ne, ne_eq]
    rintro rfl
    exact ht hc

/-! ## Trimming, cutting and scanning -/

theorem trim_concat_space (l : Str) (x : Char) (hx : IsSpace x = true) :
    TrimSpace (l ++ [x]) = TrimSpace l := by
  induction l with
  | nil => simp [TrimSpace, List.dropWhile, hx]
  | cons a l ih =>
    by_cases ha : IsSpace a = true
    · have h₁ : TrimSpace (a :: l ++ [x]) = TrimSpace (l ++ [x]) := by
        simp [TrimSpace, List.dropWhile, ha]
      have h₂ : TrimSpace (a :: l) = TrimSpace l := by
        simp [TrimSpace, List.dropWhile, ha]
      rw [h₁, h₂, ih]
    · have h₁ : TrimSpace (a :: l ++ [x]) = List.rdropWhile IsSpace ((a :: l) ++ [x]) := by
        simp [TrimSpace, List.dropWhile, ha]
      have h₂ : TrimSpace (a :: l) = List.rdropWhile IsSpace (a :: l) := by
        simp [TrimSpace, List.dropWhile, ha]
      rw [h₁, h₂, List.rdropWhile_concat_pos _ _ _ hx]

/-- Trimming does not see the carriage return that the scanner drops. -/
theorem TrimSpace_dropCR (l : Str) : TrimSpace (dropCR l) = TrimSpace l := by
  unfold dropCR
  split
  · rename_i h
    have hl : l.dropLast ++ ['\r'] = l := List.dropLast_append_getLast? _ h
    conv_rhs => rw [← hl]
    rw [trim_concat_space _ _ (by decide)]
  · rfl

theorem Cut_append (sep : Char) (u v : Str) (hu : sep ∉ u) :
    Cut sep (u ++ sep :: v) = some (u, v) := by
  induction u with
  | nil => simp [Cut]
  | cons a u ih =>
    have ha : a ≠ sep := fun h => hu (by simp [h])
    have hu' : sep ∉ u := fun h => hu (List.mem_cons_of_mem _ h)
    simp [Cut, ha, ih hu']

theorem SplitN_two (sep : Char) (u v : Str) (hu : sep ∉ u) :
    SplitN (u ++ sep :: v) sep 2 = [u, v] := by
  simp [SplitN, Cut_append sep u v hu]

/-- Two ways of cutting a text at a separator agree when the separator occurs once. -/
theorem cut_unique (sep : Char) (u v u' v' : Str) (hu : sep ∉ u) (hv : sep ∉ v)
    (h : u' ++ sep :: v' = u ++ sep :: v) : u' = u ∧ v' = v := by
  rcases List.append_eq_append_iff.1 h with ⟨a, rfl, ha⟩ | ⟨c, rfl, hc⟩
  · cases a with
    | nil => simpa using ha
    | cons x a =>
      simp only [List.cons_append, List.cons.injEq] at ha
      exact absurd (by rw [ha.1]; simp) hu
  · cases c with
    | nil =>
      simp only [List.nil_append, List.cons.injEq, true_and] at hc
      simp [hc]
    | cons x c =>
      simp only [List.cons_append, List.cons.injEq] at hc
      exact absurd (by rw [hc.2]; simp) hv

theorem username_no_colon {u : Str} (h : UsernameGrammar u) : ':' ∉ u := by
  obtain ⟨c, us, rfl, hc, hus⟩ := h
  intro hmem
  rcases List.mem_cons.1 hmem with h | h
  · rw [← h] at hc
    exact absurd hc (by decide)
  · exact absurd (hus _ h) (by decide)

theorem hash_no_colon {v : Str} (h : HashGrammar v) : ':' ∉ v := by
  obtain ⟨tag, ds, p, rfl, htag, hd, hp⟩ := h
  intro hmem
  simp only [List.mem_append, List.mem_cons] at hmem
  rcases hmem with (hmem | hmem) | hmem | hmem
  · rcases htag with rfl | rfl | rfl <;> exact absurd hmem (by decide)
  · exact absurd (hd.2 _ hmem) (by decide)
  · exact absurd hmem (by decide)
  · exact absurd (hp.2 _ hmem) (by decide)

theorem hash_length {v : Str} (h : HashGrammar v) : v.length = 60 := by
  obtain ⟨tag, ds, p, rfl, htag, hd, hp⟩ := h
  rcases htag with rfl | rfl | rfl <;> simp [hd.1, hp.1]

/-- A line accepted by `bexp` is cut by `SplitN` into its username and its hash. -/
theorem SplitN_of_valid {line : Str} (h : isValidLine bexp line = true) :
    ∃ u v, line = u ++ ':' :: v ∧ UsernameGrammar u ∧ HashGrammar v ∧
      SplitN line ':' 2 = [u, v] := by
  obtain ⟨u, v, rfl, hu, hv⟩ := (bexp_iff_grammar line).1 h
  exact ⟨u, v, rfl, hu, hv, SplitN_two _ _ _ (username_no_colon hu)⟩

theorem not_bexp_nil : isValidLine bexp [] = false := by decide

/-- No line is both a comment and a credential. -/
theorem not_bexp_of_cexp {line : Str} (h : isValidLine cexp line = true) :
    isValidLine bexp line = false := by
  obtain ⟨t, rfl, _⟩ := (cexp_iff line).1 h
  rw [Bool.eq_false_iff]
  intro hb
  obtain ⟨c, us, x, d, p, heq, hc, _⟩ := (bexp_iff_parts _).1 hb
  simp only [List.cons_append, List.cons.injEq] at heq
  rw [← heq.1] at hc
  exact absurd hc (by decide)

theorem rawLines_append_newline (l rest : Str) (hl : '\n' ∉ l) :
    rawLines (l ++ '\n' :: rest) = l :: rawLines rest := by
  induction l with
  | nil => simp [rawLines]
  | cons a l ih =>
    have ha : a ≠ '\n' := fun h => hl (by simp [h])
    have hl' : '\n' ∉ l := fun h => hl (List.mem_cons_of_mem _ h)
    simp [rawLines, ha, ih hl']

theorem len_replicate (n : Nat) (c : Char) : len (List.replicate n c) = n * RuneLen c := by
  simp [len]

/-- The scanner gives nothing once the first line does not fit its buffer. -/
theorem scanLines_long_first (l rest : Str) (hl : '\n' ∉ l) (hlen : MaxScanTokenSize ≤ len l) :
    scanLines (l ++ '\n' :: rest) = [] := by
  have h : ¬ len l < MaxScanTokenSize := Nat.not_lt.2 hlen
  simp [scanLines, rawLines_append_newline l rest hl, List.takeWhile, h]

/-- The scanner gives every line when each fits its buffer. -/
theorem scanLines_of_short (content : Str)
    (h : ∀ l ∈ rawLines content, len l < MaxScanTokenSize) :
    scanLines content = (rawLines content).map dropCR := by
  unfold scanLines
  congr 1
  rw [List.takeWhile_eq_self_iff]
  intro l hl
  simpa using h l hl

/-! ## The users map and the reading loop -/

theorem lookup_filter_ne (m : Users) (k k' : Str) (h : k' ≠ k) :
    List.lookup k' (m.filter fun e => e.1 != k) = List.lookup k' m := by
  induction m with
  | nil => rfl
  | cons e m ih =>
    obtain ⟨a, b⟩ := e
    by_cases ha : a = k
    · subst ha
      have hk : (k' == a) = false := by simpa using h
      simp [List.filter, List.lookup, hk, ih]
    · have hne : (a != k) = true := by simpa using ha
      simp only [List.filter, hne, List.lookup, ih]

theorem lookup_mapAssign (m : Users) (k v k' : Str) :
    List.lookup k' (mapAssign m k v) = if k' = k then some v else List.lookup k' m := by
  unfold mapAssign
  by_cases h : k' = k
  · subst h
    simp [List.lookup]
  · have hk : (k' == k) = false := by simpa using h
    simp only [List.lookup, hk, h, if_false]
    exact lookup_filter_ne m k k' h

theorem mapHas_iff (m : Users) (k : Str) : mapHas m k = true ↔ ∃ v, List.lookup k m = some v := by
  unfold mapHas
  exact Option.isSome_iff_exists

theorem LastCarries_nil (u v : Str) : ¬ LastCarries [] u v := by
  rintro ⟨pre, l, post, h, _⟩
  simp at h

theorem LastCarries_cons (l₀ : Str) (ls : List Str) (u v : Str) :
    LastCarries (l₀ :: ls) u v ↔
      LastCarries ls u v ∨ (Carries l₀ u v ∧ ∀ l' ∈ ls, ∀ v', ¬ Carries l' u v') := by
  constructor
  · rintro ⟨pre, l, post, h, hc, hpost⟩
    cases pre with
    | nil =>
      simp only [List.nil_append, List.cons.injEq] at h
      obtain ⟨rfl, rfl⟩ := h
      exact Or.inr ⟨hc, hpost⟩
    | cons a pre =>
      simp only [List.cons_append, List.cons.injEq] at h
      exact Or.inl ⟨pre, l, post, h.2, hc, hpost⟩
  · rintro (⟨pre, l, post, rfl, hc, hpost⟩ | ⟨hc, hpost⟩)
    · exact ⟨l₀ :: pre, l, post, rfl, hc, hpost⟩
    · exact ⟨[], l₀, ls, rfl, hc, hpost⟩

/-- Some line carries the username exactly when a last such line exists. -/
theorem exists_LastCarries_iff (ls : List Str) (u : Str) :
    (∃ v, LastCarries ls u v) ↔ ∃ l ∈ ls, ∃ v, Carries l u v := by
  induction ls with
  | nil =>
    simp only [List.not_mem_nil, false_and, exists_false, iff_false, not_exists]
    exact fun v => LastCarries_nil u v
  | cons l₀ ls ih =>
    constructor
    · rintro ⟨v, hv⟩
      rcases (LastCarries_cons _ _ _ _).1 hv with h | ⟨h, _⟩
      · obtain ⟨l, hl, w, hw⟩ := ih.1 ⟨v, h⟩
        exact ⟨l, List.mem_cons_of_mem _ hl, w, hw⟩
      · exact ⟨l₀, List.mem_cons_self _ _, v, h⟩
    · rintro ⟨l, hl, v, hv⟩
      by_cases hrest : ∃ l' ∈ ls, ∃ v', Carries l' u v'
      · obtain ⟨w, hw⟩ := ih.2 hrest
        exact ⟨w, (LastCarries_cons _ _ _ _).2 (Or.inl hw)⟩
      · have hnone : ∀ l' ∈ ls, ∀ v', ¬ Carries l' u v' :=
          fun l' hl' v' hc => hrest ⟨l', hl', v', hc⟩
        rcases List.mem_cons.1 hl with rfl | hl
        · exact ⟨v, (LastCarries_cons _ _ _ _).2 (Or.inr ⟨hv, hnone⟩)⟩
        · exact absurd hv (hnone l hl v)

theorem carries_iff_of_split {line u₀ v₀ : Str} (hvalid : isValidLine bexp line = true)
    (hline : line = u₀ ++ ':' :: v₀) (hu : UsernameGrammar u₀) (hv : HashGrammar v₀) (u v : Str) :
    Carries line u v ↔ u = u₀ ∧ v = v₀ := by
  constructor
  · rintro ⟨_, h⟩
    exact cut_unique ':' u₀ v₀ u v (username_no_colon hu) (hash_no_colon hv) (by rw [← h, hline])
  · rintro ⟨rfl, rfl⟩
    exact ⟨hvalid, hline⟩

theorem readLoop_skip (text : Str) (rest : List Str) (users : Users)
    (h : TrimSpace text = [] ∨ isValidLine cexp (TrimSpace text) = true) :
    readLoop (text :: rest) users = readLoop rest users := by
  have h' : (decide (TrimSpace text = []) || isValidLine cexp (TrimSpace text)) = true := by
    rcases h with h | h <;> simp [h]
  simp only [readLoop, h', if_true]

theorem readLoop_cred (text : Str) (rest : List Str) (users : Users) (u v : Str)
    (hne : TrimSpace text ≠ []) (hc : isValidLine cexp (TrimSpace text) = false)
    (hb : isValidLine bexp (TrimSpace text) = true)
    (hsplit : SplitN (TrimSpace text) ':' 2 = [u, v]) :
    readLoop (text :: rest) users = readLoop rest (mapAssign users u v) := by
  have h' : (decide (TrimSpace text = []) || isValidLine cexp (TrimSpace text)) = false := by
    simp [hne, hc]
  simp [readLoop, h', hb, hsplit]

theorem readLoop_bad (text : Str) (rest : List Str) (users : Users)
    (hne : TrimSpace text ≠ []) (hc : isValidLine cexp (TrimSpace text) = false)
    (hb : isValidLine bexp (TrimSpace text) = false) :
    readLoop (text :: rest) users = .err (Errorf (TrimSpace text)) := by
  have h' : (decide (TrimSpace text = []) || isValidLine cexp (TrimSpace text)) = false := by
    simp [hne, hc]
  simp [readLoop, h', hb]

/-- The three ways a line is treated by the loop. -/
theorem line_cases (text : Str) :
    (TrimSpace text = [] ∨ isValidLine cexp (TrimSpace text) = true) ∨
    (TrimSpace text ≠ [] ∧ isValidLine cexp (TrimSpace text) = false ∧
      isValidLine bexp (TrimSpace text) = true) ∨
    (TrimSpace text ≠ [] ∧ isValidLine cexp (TrimSpace text) = false ∧
      isValidLine bexp (TrimSpace text) = false) := by
  by_cases h₁ : TrimSpace text = []
  · exact Or.inl (Or.inl h₁)
  · cases h₂ : isValidLine cexp (TrimSpace text)
    · cases h₃ : isValidLine bexp (TrimSpace text)
      · exact Or.inr (Or.inr ⟨h₁, rfl, rfl⟩)
      · exact Or.inr (Or.inl ⟨h₁, rfl, rfl⟩)
    · exact Or.inl (Or.inr rfl)

theorem not_carries_of_skip {line : Str} (h : line = [] ∨ isValidLine cexp line = true)
    (u v : Str) : ¬ Carries line u v := by
  rintro ⟨hb, _⟩
  rcases h with rfl | h
  · rw [not_bexp_nil] at hb
    exact absurd hb (by decide)
  · rw [not_bexp_of_cexp h] at hb
    exact absurd hb (by decide)

/-- What a successful run of the loop leaves in the map: for each username the hash of the last
line that carries it, and the entries of the starting map for the usernames no line carries. -/
theorem readLoop_lookup (toks : List Str) (users users' : Users)
    (h : readLoop toks users = .ok users') (u v : Str) :
    List.lookup u users' = some v ↔
      LastCarries (toks.map TrimSpace) u v ∨
        ((∀ l ∈ toks.map TrimSpace, ∀ v', ¬ Carries l u v') ∧ List.lookup u users = some v) := by
  induction toks generalizing users with
  | nil =>
    simp only [readLoop, Outcome.ok.injEq] at h
    subst h
    simp [LastCarries_nil]
  | cons text rest ih =>
    rcases line_cases text with hskip | ⟨hne, hc, hb⟩ | ⟨hne, hc, hb⟩
    · rw [readLoop_skip text rest users hskip] at h
      have hno := not_carries_of_skip hskip u
      rw [ih users h, List.map_cons, LastCarries_cons]
      simp only [List.mem_cons, forall_eq_or_imp]
      constructor
      · rintro (h₁ | ⟨h₁, h₂⟩)
        · exact Or.inl (Or.inl h₁)
        · exact Or.inr ⟨⟨hno, h₁⟩, h₂⟩
      · rintro ((h₁ | ⟨h₁, _⟩) | ⟨⟨_, h₁⟩, h₂⟩)
        · exact Or.inl h₁
        · exact absurd h₁ (hno v)
        · exact Or.inr ⟨h₁, h₂⟩
    · obtain ⟨u₀, v₀, hline, hu, hv, hsplit⟩ := SplitN_of_valid hb
      rw [readLoop_cred text rest users u₀ v₀ hne hc hb hsplit] at h
      have hcar := carries_iff_of_split hb hline hu hv u
      rw [ih _ h, List.map_cons, LastCarries_cons, lookup_mapAssign]
      simp only [List.mem_cons, forall_eq_or_imp, hcar]
      by_cases huu : u = u₀
      · subst huu
        simp only [if_true, Option.some.injEq, true_and]
        constructor
        · rintro (h₁ | ⟨h₁, h₂⟩)
          · exact Or.inl (Or.inl h₁)
          · exact Or.inl (Or.inr ⟨h₂.symm, h₁⟩)
        · rintro ((h₁ | ⟨h₁, h₂⟩) | ⟨⟨h₁, _⟩, _⟩)
          · exact Or.inl h₁
          · exact Or.inr ⟨h₂, h₁.symm⟩
          · exact absurd rfl (h₁ v₀)
      · simp only [huu, if_false, false_and, or_false, not_false_eq_true, implies_true, true_and]
    · rw [readLoop_bad text rest users hne hc hb] at h
      exact absurd h (by simp)

/-- The loop runs to its end on well-formed lines. -/
theorem readLoop_ok_of_wellFormed (toks : List Str) (users : Users)
    (h : ∀ t ∈ toks, wellFormedLine t = true) : ∃ users', readLoop toks users = .ok users' := by
  induction toks generalizing users with
  | nil => exact ⟨users, rfl⟩
  | cons text rest ih =>
    have hrest : ∀ t ∈ rest, wellFormedLine t = true := fun t ht => h t (List.mem_cons_of_mem _ ht)
    rcases line_cases text with hskip | ⟨hne, hc, hb⟩ | ⟨hne, hc, hb⟩
    · rw [readLoop_skip text rest users hskip]
      exact ih users hrest
    · obtain ⟨u₀, v₀, _, _, _, hsplit⟩ := SplitN_of_valid hb
      rw [readLoop_cred text rest users u₀ v₀ hne hc hb hsplit]
      exact ih _ hrest
    · have := h text (List.mem_cons_self _ _)
      simp [wellFormedLine, hne, hc, hb] at this

/-! ## Reading a file -/

theorem TrimSpace_eq_self (s : Str) (h : ∀ c ∈ s, IsSpace c = false) : TrimSpace s = s := by
  have hd : ∀ t : Str, (∀ c ∈ t, IsSpace c = false) → t.dropWhile IsSpace = t := by
    intro t ht
    cases t with
    | nil => rfl
    | cons a t => simp [List.dropWhile, ht a (List.mem_cons_self _ _)]
  unfold TrimSpace
  rw [hd s h, List.rdropWhile, hd _ (fun c hc => h c (List.mem_reverse.1 hc)), List.reverse_reverse]

theorem longComment_no_newline (n : Nat) : '\n' ∉ longComment n := by
  intro h
  rcases List.mem_cons.1 h with h | h
  · exact absurd h (by decide)
  · exact absurd (List.eq_of_mem_replicate h) (by decide)

theorem len_longComment (n : Nat) : len (longComment n) = n + 1 := by
  have h : len (longComment n) = RuneLen '#' + len (List.replicate n 'x') := by
    simp [len, longComment]
  rw [h, len_replicate]
  have h₁ : RuneLen '#' = 1 := by decide
  have h₂ : RuneLen 'x' = 1 := by decide
  rw [h₁, h₂]
  omega

theorem wellFormed_longComment (n : Nat) : wellFormedLine (longComment n) = true := by
  have htrim : TrimSpace (longComment n) = longComment n := by
    apply TrimSpace_eq_self
    intro c hc
    rcases List.mem_cons.1 hc with rfl | hc
    · decide
    · rw [List.eq_of_mem_replicate hc]
      decide
  have hc : isValidLine cexp (longComment n) = true := by
    rw [cexp_iff]
    refine ⟨List.replicate n 'x', rfl, ?_⟩
    intro h
    exact absurd (List.eq_of_mem_replicate h) (by decide)
  simp [wellFormedLine, htrim, hc]

/-- The outcome of `readFile`, and so of `Open`, when the file opens, the loop ends well and
the file can be stat'd. -/
theorem Open_ok (fs : FileSystem) (p content : Str) (stat : FileInfo) (users : Users)
    (hopen : fs.Open (fs.Abs p) = .ok content) (hstat : fs.Stat (fs.Abs p) = .ok stat)
    (hloop : readLoop (scanLines content) [] = .ok users) :
    Open fs p = .ok
      { CheckInterval := 0
        lastModified := stat.ModTime
        lastSize := stat.Size
        path := fs.Abs p
        users := users } := by
  simp [Open, readFile, hopen, hstat, hloop]

/-- The map a successful run of the loop builds from the lines of a file that all fit the
buffer. -/
theorem readLoop_readsExactly (content : Str) (users : Users)
    (hfit : ∀ l ∈ rawLines content, len l < MaxScanTokenSize)
    (hloop : readLoop (scanLines content) [] = .ok users) :
    ReadsExactly (rawLines content) users := by
  have hmap : (scanLines content).map TrimSpace = (rawLines content).map TrimSpace := by
    rw [scanLines_of_short content hfit, List.map_map]
    exact List.map_congr_left fun l _ => TrimSpace_dropCR l
  have hlook : ∀ u v, List.lookup u users = some v ↔
      LastCarries ((rawLines content).map TrimSpace) u v := by
    intro u v
    rw [readLoop_lookup _ _ _ hloop u v, hmap]
    simp
  refine ⟨?_, hlook⟩
  intro u
  rw [mapHas_iff]
  simp only [hlook, exists_LastCarries_iff, List.mem_map]
  constructor
  · rintro ⟨_, ⟨l, hl, rfl⟩, v, hv⟩
    exact ⟨l, hl, v, hv⟩
  · rintro ⟨l, hl, v, hv⟩
    exact ⟨_, ⟨l, hl, rfl⟩, v, hv⟩

theorem scanLines_long_second (l₁ l₂ rest : Str) (h₁ : '\n' ∉ l₁) (h₂ : '\n' ∉ l₂)
    (hfit : len l₁ < MaxScanTokenSize) (hlong : MaxScanTokenSize ≤ len l₂) :
    scanLines (l₁ ++ '\n' :: (l₂ ++ '\n' :: rest)) = [dropCR l₁] := by
  have h : ¬ len l₂ < MaxScanTokenSize := Nat.not_lt.2 hlong
  simp [scanLines, rawLines_append_newline _ _ h₁, rawLines_append_newline _ _ h₂,
    List.takeWhile, hfit, h]

/-! ## The state after `readFile` and `Reload` -/

/-- A call of `readFile` that does not return nil leaves the File as it was. -/
theorem readFile_unchanged (fs : FileSystem) (h : File) (hne : (readFile fs h).1 ≠ .ok ()) :
    (readFile fs h).2 = h := by
  cases hO : fs.Open h.path with
  | error e => simp [readFile, hO]
  | ok content =>
    cases hL : readLoop (scanLines content) [] with
    | err e => simp [readFile, hO, hL]
    | panic => simp [readFile, hO, hL]
    | ok users =>
      cases hS : fs.Stat h.path with
      | error e => simp [readFile, hO, hL, hS]
      | ok stat => simp [readFile, hO, hL, hS] at hne

/-- A call of `readFile` that returns nil has recorded what `os.Stat` reported. -/
theorem readFile_ok (fs : FileSystem) (h h' : File) (hok : readFile fs h = (.ok (), h')) :
    ∃ stat content users, fs.Stat h.path = .ok stat ∧ fs.Open h.path = .ok content ∧
      readLoop (scanLines content) [] = .ok users ∧
      h' = { h with lastModified := stat.ModTime, lastSize := stat.Size, users := users } := by
  cases hO : fs.Open h.path with
  | error e => simp [readFile, hO] at hok
  | ok content =>
    cases hL : readLoop (scanLines content) [] with
    | err e => simp [readFile, hO, hL] at hok
    | panic => simp [readFile, hO, hL] at hok
    | ok users =>
      cases hS : fs.Stat h.path with
      | error e => simp [readFile, hO, hL, hS] at hok
      | ok stat =>
        simp only [readFile, hO, hL, hS, Prod.mk.injEq, true_and] at hok
        exact ⟨stat, content, users, rfl, rfl, hL, hok.symm⟩

/-- With the recorded metadata on the file, `Reload` returns nil and does nothing. -/
theorem Reload_same_metadata (fs₀ fs : FileSystem) (h : File) (stat : FileInfo)
    (hstat : fs₀.Stat h.path = .ok stat) (hmod : stat.ModTime = h.lastModified)
    (hsize : stat.Size = h.lastSize) : Reload fs₀ fs h = (.ok (), h) := by
  simp [Reload, hstat, hmod, hsize]

/-- With other metadata on the file, `Reload` does what `readFile` does. -/
theorem Reload_changed (fs₀ fs : FileSystem) (h : File) (stat : FileInfo)
    (hstat : fs₀.Stat h.path = .ok stat)
    (hchanged : stat.ModTime ≠ h.lastModified ∨ stat.Size ≠ h.lastSize) :
    Reload fs₀ fs h = readFile fs h := by
  have hc : (stat.ModTime != h.lastModified || stat.Size != h.lastSize) = true := by
    rcases hchanged with hc | hc <;> simp [hc]
  simp only [Reload, hstat, hc, if_true]
  rcases hr : readFile fs h with ⟨r, h'⟩
  cases r <;> rfl

/-- After a successful `Open` the recorded metadata are those `os.Stat` reports. -/
theorem Open_records_stat (fs : FileSystem) (p : Str) (h : File) (hok : Open fs p = .ok h) :
    ∃ stat, fs.Stat h.path = .ok stat ∧ stat.ModTime = h.lastModified ∧
      stat.Size = h.lastSize := by
  unfold Open at hok
  simp only at hok
  split at hok
  · rename_i h' hr
    simp only [Outcome.ok.injEq] at hok
    subst hok
    obtain ⟨stat, _, _, hs, _, _, rfl⟩ := readFile_ok _ _ _ hr
    exact ⟨stat, hs, rfl, rfl⟩
  · simp at hok
  · simp at hok

/-- After a successful `Reload` against one state of the file the recorded metadata are those
`os.Stat` reports. -/
theorem Reload_records_stat (fs : FileSystem) (h₀ h : File)
    (hok : Reload fs fs h₀ = (.ok (), h)) :
    ∃ stat, fs.Stat h.path = .ok stat ∧ stat.ModTime = h.lastModified ∧
      stat.Size = h.lastSize := by
  cases hs : fs.Stat h₀.path with
  | error e => simp [Reload, hs] at hok
  | ok stat =>
    by_cases hsame : stat.ModTime = h₀.lastModified ∧ stat.Size = h₀.lastSize
    · rw [Reload_same_metadata fs fs h₀ stat hs hsame.1 hsame.2] at hok
      simp only [Prod.mk.injEq, true_and] at hok
      subst hok
      exact ⟨stat, hs, hsame.1, hsame.2⟩
    · rw [Reload_changed fs fs h₀ stat hs (by tauto)] at hok
      obtain ⟨stat', _, _, hs', _, _, rfl⟩ := readFile_ok _ _ _ hok
      exact ⟨stat', hs', rfl, rfl⟩

/-! ## The claims -/

/-- Claim C1, amended: for every file content whose lines each fit the scanner's buffer (fewer
than 65536 bytes) and, after trimming, are each empty, a comment line or a valid credential
line, `Open` succeeds (the file can be opened and stat'd) and the users map of the returned
File holds exactly the pairs of the credential lines: a username is a key iff some credential
line carries it, and its value is the hash of the last credential line carrying it. -/
theorem open_reads_well_formed_file (fs : FileSystem) (p content : Str) (stat : FileInfo)
    (hopen : fs.Open (fs.Abs p) = .ok content) (hstat : fs.Stat (fs.Abs p) = .ok stat)
    (hfit : ∀ l ∈ rawLines content, len l < MaxScanTokenSize)
    (hwf : ∀ l ∈ rawLines content, wellFormedLine l = true) :
    ∃ h, Open fs p = .ok h ∧ ReadsExactly (rawLines content) h.users := by
  have htoks : ∀ t ∈ scanLines content, wellFormedLine t = true := by
    rw [scanLines_of_short content hfit]
    intro t ht
    obtain ⟨l, hl, rfl⟩ := List.mem_map.1 ht
    have := hwf l hl
    simpa [wellFormedLine, TrimSpace_dropCR] using this
  obtain ⟨users, hloop⟩ := readLoop_ok_of_wellFormed (scanLines content) [] htoks
  exact ⟨_, Open_ok fs p content stat users hopen hstat hloop,
    readLoop_readsExactly content users hfit hloop⟩

/-- The amended claim C1 at the example file: `Open` reads both entries. -/
theorem open_reads_well_formed_file_witness :
    (∀ l ∈ rawLines validContent, len l < MaxScanTokenSize) ∧
    (∀ l ∈ rawLines validContent, wellFormedLine l = true) ∧
    ∃ h, Open (oneFile validContent ⟨5, 152⟩) examplePath = .ok h ∧
      ReadsExactly (rawLines validContent) h.users :=
  ⟨by decide, by decide,
    open_reads_well_formed_file (oneFile validContent ⟨5, 152⟩) examplePath validContent ⟨5, 152⟩
      rfl rfl (by decide) (by decide)⟩

/-- Claim C1 as stated fails: in a file whose first line is a comment of 65536 bytes and whose
second line is a valid entry for `example1`, every line is well formed and `Open` succeeds, but
the users map of the returned File has no key `example1`. -/
theorem open_drops_entries_after_long_line :
    (oneFile longCommentThenEntry ⟨5, 65606⟩).Open examplePath = .ok longCommentThenEntry ∧
    (∀ l ∈ rawLines longCommentThenEntry, wellFormedLine l = true) ∧
    ∃ h, Open (oneFile longCommentThenEntry ⟨5, 65606⟩) examplePath = .ok h ∧
      mapHas h.users "example1".toList = false ∧
      ¬ ReadsExactly (rawLines longCommentThenEntry) h.users := by
  have hraw : rawLines longCommentThenEntry = [longComment 65535, exampleLine1] := by
    have h₁ : rawLines exampleLine1 = [exampleLine1] := by decide
    unfold longCommentThenEntry
    rw [rawLines_append_newline _ _ (longComment_no_newline _), h₁]
  have hscan : scanLines longCommentThenEntry = [] :=
    scanLines_long_first _ _ (longComment_no_newline _) (by rw [len_longComment]; decide)
  have hloop : readLoop (scanLines longCommentThenEntry) [] = .ok [] := by
    rw [hscan]
    rfl
  refine ⟨rfl, ?_, _, Open_ok _ examplePath longCommentThenEntry ⟨5, 65606⟩ [] rfl rfl hloop,
    rfl, ?_⟩
  · intro l hl
    rw [hraw] at hl
    rcases List.mem_cons.1 hl with rfl | hl
    · exact wellFormed_longComment _
    · rw [List.mem_singleton.1 hl]
      decide
  · rintro ⟨hkeys, _⟩
    have hmem : exampleLine1 ∈ rawLines longCommentThenEntry := by
      rw [hraw]
      exact List.mem_cons_of_mem _ (List.mem_cons_self _ _)
    have hcar : Carries (TrimSpace exampleLine1) "example1".toList exampleHash1 :=
      ⟨by decide, by decide⟩
    have := (hkeys "example1".toList).2 ⟨exampleLine1, hmem, exampleHash1, hcar⟩
    exact absurd this (by decide)

/-- Claim C2 at a failing input: the file holds a valid entry, then a comment of 65536 bytes,
then a line that matches neither grammar; `Open` returns a nil error and a File whose users map
holds the entry that preceded the long line. -/
theorem open_accepts_invalid_line_after_long_line :
    (∃ l ∈ rawLines entryLongCommentGarbage, invalidLine l = true) ∧
    Open (oneFile entryLongCommentGarbage ⟨5, 65636⟩) examplePath = .ok
      { CheckInterval := 0
        lastModified := 5
        lastSize := 65636
        path := examplePath
        users := [("example1".toList, exampleHash1)] } := by
  have hraw : rawLines entryLongCommentGarbage =
      [exampleLine1, longComment 65535, garbageLine] := by
    have h₁ : rawLines garbageLine = [garbageLine] := by decide
    unfold entryLongCommentGarbage
    rw [rawLines_append_newline _ _ (by decide),
      rawLines_append_newline _ _ (longComment_no_newline _), h₁]
  have hscan : scanLines entryLongCommentGarbage = [dropCR exampleLine1] :=
    scanLines_long_second _ _ _ (by decide) (longComment_no_newline _) (by decide)
      (by rw [len_longComment]; decide)
  have hloop : readLoop (scanLines entryLongCommentGarbage) [] =
      .ok [("example1".toList, exampleHash1)] := by
    rw [hscan]
    decide
  refine ⟨⟨garbageLine, ?_, by decide⟩, ?_⟩
  · rw [hraw]
    exact List.mem_cons_of_mem _ (List.mem_cons_of_mem _ (List.mem_cons_self _ _))
  · exact Open_ok _ examplePath entryLongCommentGarbage ⟨5, 65636⟩ _ rfl rfl hloop

/-- Claim C3: for every string `s`, `isValidLine(bexp, s)` is true if and only if `s` is exactly
a username (one letter, then letters, digits, `_` or `-`), a single `:`, and a hash (one of
`$2a$`, `$2b$`, `$2y$`, two digits, `$`, 53 characters of `[A-Za-z0-9./]`); so a line with an
empty username or a username that starts with a digit is rejected, and an accepted line has a
hash of 60 characters. -/
theorem bexp_accepts_exactly_credential_grammar :
    (∀ s, isValidLine bexp s = true ↔ CredentialGrammar s) ∧
    (∀ v, isValidLine bexp (':' :: v) = false) ∧
    (∀ c rest, isDigit c = true → isValidLine bexp (c :: rest) = false) ∧
    (∀ u v, ':' ∉ u → isValidLine bexp (u ++ ':' :: v) = true → v.length = 60) := by
  refine ⟨bexp_iff_grammar, ?_, ?_, ?_⟩
  · intro v
    rw [Bool.eq_false_iff]
    intro h
    obtain ⟨c, us, x, d, p, heq, hc, _⟩ := (bexp_iff_parts _).1 h
    simp only [List.cons_append, List.cons.injEq] at heq
    rw [← heq.1] at hc
    exact absurd hc (by decide)
  · intro c rest hd
    rw [Bool.eq_false_iff]
    intro h
    obtain ⟨c', us, x, d, p, heq, hc, _⟩ := (bexp_iff_parts _).1 h
    simp only [List.cons_append, List.cons.injEq] at heq
    rw [← heq.1] at hc
    simp only [isDigit, Bool.and_eq_true, decide_eq_true_eq] at hd
    simp only [isLetter, Bool.or_eq_true, Bool.and_eq_true, decide_eq_true_eq] at hc
    have h₁ : ('9' : Char) < 'a' := by decide
    have h₂ : ('9' : Char) < 'A' := by decide
    rcases hc with ⟨hc, _⟩ | ⟨hc, _⟩
    · exact absurd (lt_of_lt_of_le h₁ hc) (not_lt.2 hd.2)
    · exact absurd (lt_of_lt_of_le h₂ hc) (not_lt.2 hd.2)
  · intro u v hu h
    obtain ⟨u₀, v₀, heq, hu₀, hv₀⟩ := (bexp_iff_grammar _).1 h
    have := cut_unique ':' u₀ v₀ u v (username_no_colon hu₀) (hash_no_colon hv₀) heq
    rw [this.2]
    exact hash_length hv₀

/-- Claim C4: `Authenticate(u, p)` is the hash-compare primitive applied to the hash stored for
`u`, or to the empty string when `u` is absent, and to `p`; hence, when the primitive rejects
the empty hash, `Authenticate(u, p)` is true if and only if `u` is a key of the users map and
the primitive accepts `(users[u], p)`, and it is false for every absent `u`. -/
theorem authenticate_is_compare_of_lookup (compare : Str → Str → Option Error) (h : File)
    (u p : Str) (hempty : ∀ q, compare [] q ≠ none) :
    (Authenticate compare h u p).1 =
      (compare (match List.lookup u h.users with | some v => v | none => []) p).isNone ∧
    ((Authenticate compare h u p).1 = true ↔
      ∃ v, List.lookup u h.users = some v ∧ compare v p = none) ∧
    (List.lookup u h.users = none → (Authenticate compare h u p).1 = false) := by
  cases hl : List.lookup u h.users with
  | none =>
    have hq : (compare [] p).isNone = false := by
      cases hc : compare [] p with
      | none => exact absurd hc (hempty p)
      | some e => rfl
    simp [Authenticate, mapIndex, hl, hq]
  | some v => simp [Authenticate, mapIndex, hl, Option.isNone_iff_eq_none]

/-- Claim C4 at the example File with a stand-in for the primitive. -/
theorem authenticate_is_compare_of_lookup_witness :
    (∀ q, compareStub [] q ≠ none) ∧
    (Authenticate compareStub (exampleFile ⟨5, 152⟩) "example1".toList "secret".toList).1 = true ∧
    (Authenticate compareStub (exampleFile ⟨5, 152⟩) "nobody".toList "secret".toList).1 = false :=
  have hempty : ∀ q, compareStub [] q ≠ none := fun q => by
    simp [compareStub, exampleHash1, exampleHash2]
  ⟨hempty,
    (authenticate_is_compare_of_lookup compareStub (exampleFile ⟨5, 152⟩) "example1".toList
      "secret".toList hempty).2.1.2 ⟨exampleHash1, by decide, by decide⟩,
    (authenticate_is_compare_of_lookup compareStub (exampleFile ⟨5, 152⟩) "nobody".toList
      "secret".toList hempty).2.2 (by decide)⟩

/-- Claim C5: `Reload` is all-or-nothing: for every File and every state of the backing file,
if `Reload` returns an error then the File (users map, recorded modification time, recorded
size) is exactly what it was before the call, so `Authenticate` answers as before. -/
theorem reload_error_leaves_state (fs₀ fs : FileSystem) (h : File) (e : Error)
    (herr : (Reload fs₀ fs h).1 = .err e) :
    (Reload fs₀ fs h).2 = h ∧
    ∀ compare u p, (Authenticate compare (Reload fs₀ fs h).2 u p).1 =
      (Authenticate compare h u p).1 := by
  have hstate : (Reload fs₀ fs h).2 = h := by
    cases hs : fs₀.Stat h.path with
    | error e' => simp [Reload, hs]
    | ok stat =>
      by_cases hsame : stat.ModTime = h.lastModified ∧ stat.Size = h.lastSize
      · rw [Reload_same_metadata fs₀ fs h stat hs hsame.1 hsame.2]
      · have hr := Reload_changed fs₀ fs h stat hs (by tauto)
        rw [hr] at herr ⊢
        apply readFile_unchanged
        rw [herr]
        simp
  exact ⟨hstate, fun compare u p => by rw [hstate]⟩

/-- Claim C5 at an example: the file has been replaced by one with an invalid line; `Reload`
returns the error and the File is as before. -/
theorem reload_error_leaves_state_witness :
    (Reload (oneFile garbageLine ⟨9, 29⟩) (oneFile garbageLine ⟨9, 29⟩)
      (exampleFile ⟨5, 152⟩)).1 = .err (Errorf garbageLine) ∧
    (Reload (oneFile garbageLine ⟨9, 29⟩) (oneFile garbageLine ⟨9, 29⟩)
      (exampleFile ⟨5, 152⟩)).2 = exampleFile ⟨5, 152⟩ :=
  ⟨by decide,
    (reload_error_leaves_state (oneFile garbageLine ⟨9, 29⟩) (oneFile garbageLine ⟨9, 29⟩)
      (exampleFile ⟨5, 152⟩) (Errorf garbageLine) (by decide)).1⟩

/-- Claim C6, amended: for every File and every backing file whose modification time or size
differs from the recorded ones, whose lines each fit the scanner's buffer (fewer than 65536
bytes) and whose content parses successfully (each line, after trimming, is empty, a comment
line or a valid credential line), `Reload` returns nil and afterwards the users map holds
exactly the pairs of the credential lines of the new content (usernames that are no longer in
the file are gone, new ones are present, nothing of the old map is merged in), and the recorded
modification time and size are those of the file. -/
theorem reload_replaces_map (fs : FileSystem) (h : File) (stat : FileInfo) (content : Str)
    (hstat : fs.Stat h.path = .ok stat)
    (hchanged : stat.ModTime ≠ h.lastModified ∨ stat.Size ≠ h.lastSize)
    (hopen : fs.Open h.path = .ok content)
    (hfit : ∀ l ∈ rawLines content, len l < MaxScanTokenSize)
    (hwf : ∀ l ∈ rawLines content, wellFormedLine l = true) :
    ∃ users, Reload fs fs h =
        (.ok (), { h with lastModified := stat.ModTime, lastSize := stat.Size, users := users }) ∧
      ReadsExactly (rawLines content) users := by
  have htoks : ∀ t ∈ scanLines content, wellFormedLine t = true := by
    rw [scanLines_of_short content hfit]
    intro t ht
    obtain ⟨l, hl, rfl⟩ := List.mem_map.1 ht
    have := hwf l hl
    simpa [wellFormedLine, TrimSpace_dropCR] using this
  obtain ⟨users, hparse⟩ := readLoop_ok_of_wellFormed (scanLines content) [] htoks
  refine ⟨users, ?_, readLoop_readsExactly content users hfit hparse⟩
  rw [Reload_changed fs fs h stat hstat hchanged]
  simp [readFile, hopen, hparse, hstat]

/-- The amended claim C6 at an example: the file with both entries has been replaced by one
that holds the second entry only; after `Reload` the users map holds the second entry only. -/
theorem reload_replaces_map_witness :
    (∀ l ∈ rawLines exampleLine2, len l < MaxScanTokenSize) ∧
    (∀ l ∈ rawLines exampleLine2, wellFormedLine l = true) ∧
    ∃ users, Reload (oneFile exampleLine2 ⟨9, 69⟩) (oneFile exampleLine2 ⟨9, 69⟩)
        (exampleFile ⟨5, 152⟩) =
        (.ok (), { exampleFile ⟨5, 152⟩ with lastModified := 9, lastSize := 69, users := users }) ∧
      ReadsExactly (rawLines exampleLine2) users :=
  ⟨by decide, by decide,
    reload_replaces_map (oneFile exampleLine2 ⟨9, 69⟩) (exampleFile ⟨5, 152⟩) ⟨9, 69⟩ exampleLine2
      rfl (by decide) rfl (by decide) (by decide)⟩

/-- Claim C7: `Reload` is idempotent on an unchanged file: for every File produced by a
successful `Open` or a successful `Reload`, with the backing file still as that call saw it,
a later `Reload` returns nil and leaves the File unchanged, whatever reading the file again
would give (it does not reparse); two Reloads in succession leave the same state as one, and so
does any number of them. -/
theorem reload_idempotent_on_unchanged_file (fs : FileSystem) (h : File)
    (hprod : (∃ p, Open fs p = .ok h) ∨ (∃ h₀, Reload fs fs h₀ = (.ok (), h))) :
    (∀ fs', Reload fs fs' h = (.ok (), h)) ∧
    Reload fs fs (Reload fs fs h).2 = Reload fs fs h ∧
    ∀ n : Nat, (fun s => (Reload fs fs s).2)^[n] h = h := by
  have hrec : ∃ stat, fs.Stat h.path = .ok stat ∧ stat.ModTime = h.lastModified ∧
      stat.Size = h.lastSize := by
    rcases hprod with ⟨p, hp⟩ | ⟨h₀, hr⟩
    · exact Open_records_stat fs p h hp
    · exact Reload_records_stat fs h₀ h hr
  obtain ⟨stat, hs, hm, hz⟩ := hrec
  have hno : ∀ fs', Reload fs fs' h = (.ok (), h) :=
    fun fs' => Reload_same_metadata fs fs' h stat hs hm hz
  refine ⟨hno, by rw [hno fs]; exact hno fs, ?_⟩
  intro n
  induction n with
  | zero => rfl
  | succ n ih => rw [Function.iterate_succ_apply', ih, hno fs]

/-- Claim C7 at the example File, produced by `Open`: a `Reload` against the same file returns
nil and changes nothing, even if the file could no longer be read. -/
theorem reload_idempotent_on_unchanged_file_witness :
    Open (oneFile validContent ⟨5, 152⟩) examplePath = .ok (exampleFile ⟨5, 152⟩) ∧
    Reload (oneFile validContent ⟨5, 152⟩) noFile (exampleFile ⟨5, 152⟩) =
      (.ok (), exampleFile ⟨5, 152⟩) :=
  ⟨by decide,
    (reload_idempotent_on_unchanged_file (oneFile validContent ⟨5, 152⟩) (exampleFile ⟨5, 152⟩)
      (Or.inl ⟨examplePath, by decide⟩)).1 noFile⟩

/-- Claim C8 at a failing input: the file is opened and read, and is gone when `os.Stat` is
called; `Open` does not return the error of `os.Stat` but panics on the nil FileInfo, and so
does a `Reload` that reparses. -/
theorem open_panics_when_stat_fails :
    (vanishingFile validContent).Stat examplePath =
      .error (notExist "stat".toList examplePath) ∧
    Open (vanishingFile validContent) examplePath = .panic ∧
    Reload (oneFile validContent ⟨9, 152⟩) (vanishingFile validContent) (exampleFile ⟨5, 152⟩) =
      (.panic, exampleFile ⟨5, 152⟩) :=
  ⟨rfl, by decide, by decide⟩

/-- Claim C9: for every path whose file cannot be opened, `Open` returns a nil File together
with exactly the error reported by the file system layer. -/
theorem open_returns_open_error (fs : FileSystem) (p : Str) (e : Error)
    (hopen : fs.Open (fs.Abs p) = .error e) : Open fs p = .err e := by
  simp [Open, readFile, hopen]

/-- Claim C9 at an example: the file does not exist. -/
theorem open_returns_open_error_witness :
    Open noFile examplePath = .err (notExist "open".toList examplePath) :=
  open_returns_open_error noFile examplePath (notExist "open".toList examplePath) rfl

/-- Claim C10: for every string `s` that contains no newline, `isValidLine(cexp, s)` is true if
and only if the first character of `s` is `#`. -/
theorem cexp_accepts_exactly_hash_lines (s : Str) (hnl : '\n' ∉ s) :
    isValidLine cexp s = true ↔ CommentGrammar s := by
  rw [cexp_iff, CommentGrammar]
  constructor
  · rintro ⟨t, rfl, _⟩
    rfl
  · intro h
    cases s with
    | nil => simp at h
    | cons c t =>
      simp only [List.head?_cons, Option.some.injEq] at h
      subst h
      exact ⟨t, rfl, fun ht => hnl (List.mem_cons_of_mem _ ht)⟩

/-- Claim C10 at the lines of the test: `# Hi` is a comment, `// Not a comment` is not. -/
theorem cexp_accepts_exactly_hash_lines_witness :
    isValidLine cexp "# Hi".toList = true ∧ isValidLine cexp "// Not a comment".toList = false :=
  ⟨(cexp_accepts_exactly_hash_lines "# Hi".toList (by decide)).2 rfl,
    Bool.eq_false_iff.2 fun h =>
      absurd ((cexp_accepts_exactly_hash_lines "// Not a comment".toList (by decide)).1 h)
        (by simp [CommentGrammar])⟩

/-! ## The first invalid line -/

theorem wellFormed_of_not_invalid (l : Str) (h : invalidLine l = false) :
    wellFormedLine l = true := by
  rcases line_cases l with hskip | ⟨_, _, hb⟩ | ⟨hne, hc, hb⟩
  · rcases hskip with h₁ | h₁ <;> simp [wellFormedLine, h₁]
  · simp [wellFormedLine, hb]
  · simp [invalidLine, hne, hc, hb] at h

theorem invalid_cases (l : Str) (h : invalidLine l = true) :
    TrimSpace l ≠ [] ∧ isValidLine cexp (TrimSpace l) = false ∧
      isValidLine bexp (TrimSpace l) = false := by
  simpa [invalidLine, and_assoc] using h

theorem wellFormed_dropCR (l : Str) : wellFormedLine (dropCR l) = wellFormedLine l := by
  simp [wellFormedLine, TrimSpace_dropCR]

/-- The loop on the well-formed lines before an invalid one, then on that line. -/
theorem readLoop_first_invalid (a : List Str) (t : Str) (b : List Str) (users : Users)
    (ha : ∀ x ∈ a, wellFormedLine x = true) (ht : invalidLine t = true) :
    readLoop (a ++ t :: b) users = .err (Errorf (TrimSpace t)) := by
  induction a generalizing users with
  | nil =>
    obtain ⟨hne, hc, hb⟩ := invalid_cases t ht
    exact readLoop_bad t b users hne hc hb
  | cons x a ih =>
    have hrest : ∀ y ∈ a, wellFormedLine y = true := fun y hy => ha y (List.mem_cons_of_mem _ hy)
    rcases line_cases x with hskip | ⟨hne, hc, hb⟩ | ⟨hne, hc, hb⟩
    · rw [List.cons_append, readLoop_skip x _ users hskip]
      exact ih users hrest
    · obtain ⟨u₀, v₀, _, _, _, hsplit⟩ := SplitN_of_valid hb
      rw [List.cons_append, readLoop_cred x _ users u₀ v₀ hne hc hb hsplit]
      exact ih _ hrest
    · have := ha x (List.mem_cons_self _ _)
      simp [wellFormedLine, hne, hc, hb] at this

/-- The scanner reaches a line when that line and the lines before it fit the buffer. -/
theorem scanLines_reaches (content : Str) (pre post : List Str) (l : Str)
    (hlines : rawLines content = pre ++ l :: post)
    (hfit : ∀ x ∈ pre ++ [l], len x < MaxScanTokenSize) :
    ∃ rest, scanLines content = pre.map dropCR ++ dropCR l :: rest := by
  have hsplit : pre ++ l :: post = (pre ++ [l]) ++ post := by simp
  have hp : ∀ x ∈ pre ++ [l], (decide (len x < MaxScanTokenSize)) = true := by
    intro x hx
    simpa using hfit x hx
  refine ⟨(post.takeWhile fun x => decide (len x < MaxScanTokenSize)).map dropCR, ?_⟩
  unfold scanLines
  rw [hlines, hsplit, List.takeWhile_append_of_pos hp]
  simp

/-- The loop stops with the error that names the first invalid line of the file, when the
scanner reaches that line. -/
theorem readLoop_scan_first_invalid (content : Str) (pre post : List Str) (l : Str)
    (hlines : rawLines content = pre ++ l :: post)
    (hpre : ∀ x ∈ pre, invalidLine x = false) (hbad : invalidLine l = true)
    (hfit : ∀ x ∈ pre ++ [l], len x < MaxScanTokenSize) :
    readLoop (scanLines content) [] = .err (Errorf (TrimSpace l)) := by
  obtain ⟨rest, hscan⟩ := scanLines_reaches content pre post l hlines hfit
  have hwf : ∀ x ∈ pre.map dropCR, wellFormedLine x = true := by
    intro x hx
    obtain ⟨y, hy, rfl⟩ := List.mem_map.1 hx
    rw [wellFormed_dropCR]
    exact wellFormed_of_not_invalid y (hpre y hy)
  have hbad' : invalidLine (dropCR l) = true := by
    simpa [invalidLine, TrimSpace_dropCR] using hbad
  rw [hscan, readLoop_first_invalid _ _ _ _ hwf hbad', TrimSpace_dropCR]

/-- The outcome of `readFile` when the file opens, the loop ends well and the file can be
stat'd. -/
theorem readFile_of_ok (fs : FileSystem) (h : File) (content : Str) (stat : FileInfo)
    (users : Users) (hopen : fs.Open h.path = .ok content) (hstat : fs.Stat h.path = .ok stat)
    (hloop : readLoop (scanLines content) [] = .ok users) :
    readFile fs h =
      (.ok (), { h with lastModified := stat.ModTime, lastSize := stat.Size, users := users }) := by
  simp [readFile, hopen, hstat, hloop]

/-- An error of the loop comes from an invalid line with only well-formed lines before it. -/
theorem readLoop_err_split (toks : List Str) (users : Users) (e : Error)
    (h : readLoop toks users = .err e) :
    ∃ a t b, toks = a ++ t :: b ∧ (∀ x ∈ a, wellFormedLine x = true) ∧
      invalidLine t = true ∧ e = Errorf (TrimSpace t) := by
  induction toks generalizing users with
  | nil => simp [readLoop] at h
  | cons text rest ih =>
    rcases line_cases text with hskip | ⟨hne, hc, hb⟩ | ⟨hne, hc, hb⟩
    · rw [readLoop_skip text rest users hskip] at h
      obtain ⟨a, t, b, rfl, ha, ht, he⟩ := ih users h
      refine ⟨text :: a, t, b, rfl, ?_, ht, he⟩
      intro x hx
      rcases List.mem_cons.1 hx with rfl | hx
      · rcases hskip with h₁ | h₁ <;> simp [wellFormedLine, h₁]
      · exact ha x hx
    · obtain ⟨u₀, v₀, _, _, _, hsplit⟩ := SplitN_of_valid hb
      rw [readLoop_cred text rest users u₀ v₀ hne hc hb hsplit] at h
      obtain ⟨a, t, b, rfl, ha, ht, he⟩ := ih _ h
      refine ⟨text :: a, t, b, rfl, ?_, ht, he⟩
      intro x hx
      rcases List.mem_cons.1 hx with rfl | hx
      · simp [wellFormedLine, hb]
      · exact ha x hx
    · rw [readLoop_bad text rest users hne hc hb] at h
      simp only [Outcome.err.injEq] at h
      exact ⟨[], text, rest, rfl, by simp, by simp [invalidLine, hne, hc, hb], h.symm⟩

theorem not_invalid_of_wellFormed (l : Str) (h : wellFormedLine l = true) :
    invalidLine l = false := by
  rw [Bool.eq_false_iff]
  intro hi
  obtain ⟨hne, hc, hb⟩ := invalid_cases l hi
  simp [wellFormedLine, hne, hc, hb] at h

theorem invalid_dropCR (l : Str) : invalidLine (dropCR l) = invalidLine l := by
  simp [invalidLine, TrimSpace_dropCR]

/-- An error of the loop over the scanned lines of a file names the first invalid line of the
file, and that line and the lines before it fit the buffer. -/
theorem scan_err_first_invalid (content : Str) (e : Error)
    (h : readLoop (scanLines content) [] = .err e) :
    ∃ pre l post, rawLines content = pre ++ l :: post ∧
      (∀ x ∈ pre, invalidLine x = false) ∧ invalidLine l = true ∧
      (∀ x ∈ pre ++ [l], len x < MaxScanTokenSize) ∧ e = Errorf (TrimSpace l) := by
  obtain ⟨a, t, b, htoks, ha, ht, he⟩ := readLoop_err_split _ _ _ h
  unfold scanLines at htoks
  obtain ⟨pre, tail, htake, hpre, htail⟩ := List.map_eq_append_iff.1 htoks
  obtain ⟨l, post, rfl, hl, _⟩ := List.map_eq_cons_iff.1 htail
  have hfits : ∀ x ∈ pre ++ [l], len x < MaxScanTokenSize := by
    intro x hx
    have hmem : x ∈ (rawLines content).takeWhile fun y => decide (len y < MaxScanTokenSize) := by
      rw [htake]
      rcases List.mem_append.1 hx with hx | hx
      · exact List.mem_append_left _ hx
      · rw [List.mem_singleton.1 hx]
        exact List.mem_append_right _ (List.mem_cons_self _ _)
    simpa using List.mem_takeWhile_imp hmem
  refine ⟨pre, l, post ++ (rawLines content).dropWhile fun y => decide (len y < MaxScanTokenSize),
    ?_, ?_, ?_, hfits, ?_⟩
  · conv_lhs => rw [← List.takeWhile_append_dropWhile
      (fun y => decide (len y < MaxScanTokenSize)) (rawLines content), htake]
    simp
  · intro x hx
    apply not_invalid_of_wellFormed
    rw [← wellFormed_dropCR]
    exact ha _ (by rw [← hpre]; exact List.mem_map_of_mem _ hx)
  · rw [← invalid_dropCR, hl]
    exact ht
  · rw [he, ← hl, TrimSpace_dropCR]

/-- What `readFile` returns when the loop ends with an error. -/
theorem readFile_of_err (fs : FileSystem) (h : File) (content : Str) (e : Error)
    (hopen : fs.Open h.path = .ok content) (hloop : readLoop (scanLines content) [] = .err e) :
    readFile fs h = (.err e, h) := by
  simp [readFile, hopen, hloop]

/-- An error of `readFile` on a file that opens is the error of the loop. -/
theorem loop_err_of_readFile_err (fs : FileSystem) (h : File) (content : Str) (e : Error)
    (hopen : fs.Open h.path = .ok content) (herr : (readFile fs h).1 = .err e) :
    readLoop (scanLines content) [] = .err e := by
  cases hL : readLoop (scanLines content) [] with
  | err e' =>
    rw [readFile_of_err fs h content e' hopen hL] at herr
    simp only [Outcome.err.injEq] at herr
    rw [herr]
  | panic => simp [readFile, hopen, hL] at herr
  | ok users =>
    cases hS : fs.Stat h.path with
    | error e' => simp [readFile, hopen, hL, hS] at herr
    | ok stat => simp [readFile, hopen, hL, hS] at herr

/-- Claim C11: when parsing fails on an invalid line, the error identifies that line: whenever
`readFile` returns an error on a file it has opened, the file has a first line in file order
that, after trimming, is non-empty and matches neither grammar, and the error has the message
`Invalid line found: ` followed by the trimmed text of that line; the File is left as it was;
`Open` on that path and a `Reload` that reparses return the same error; and the lines after
that line are not examined: any file with the same lines up to it gives the same error. -/
theorem readFile_error_names_first_invalid_line (fs : FileSystem) (h : File) (content : Str)
    (e : Error) (hopen : fs.Open h.path = .ok content) (herr : (readFile fs h).1 = .err e) :
    ∃ pre l post, rawLines content = pre ++ l :: post ∧
      (∀ x ∈ pre, invalidLine x = false) ∧ invalidLine l = true ∧
      e = .errorString ("Invalid line found: ".toList ++ TrimSpace l) ∧
      readFile fs h = (.err e, h) ∧
      (∀ p, fs.Abs p = h.path → Open fs p = .err e) ∧
      (∀ (fs₀ : FileSystem) (stat : FileInfo), fs₀.Stat h.path = .ok stat →
        (stat.ModTime ≠ h.lastModified ∨ stat.Size ≠ h.lastSize) →
        Reload fs₀ fs h = (.err e, h)) ∧
      (∀ (fs' : FileSystem) (h' : File) (content' : Str) (post' : List Str),
        fs'.Open h'.path = .ok content' → rawLines content' = pre ++ l :: post' →
        readFile fs' h' = (.err e, h')) := by
  have hloop := loop_err_of_readFile_err fs h content e hopen herr
  obtain ⟨pre, l, post, hlines, hpre, hbad, hfits, he⟩ := scan_err_first_invalid content e hloop
  have hread := readFile_of_err fs h content e hopen hloop
  refine ⟨pre, l, post, hlines, hpre, hbad, he, hread, ?_, ?_, ?_⟩
  · intro p hp
    have hopen' : fs.Open (fs.Abs p) = .ok content := by rw [hp]; exact hopen
    simp [Open, readFile, hopen', hloop]
  · intro fs₀ stat hstat hchanged
    rw [Reload_changed fs₀ fs h stat hstat hchanged]
    exact hread
  · intro fs' h' content' post' hopen' hlines'
    apply readFile_of_err fs' h' content' e hopen'
    rw [he]
    exact readLoop_scan_first_invalid content' pre post' l hlines' hpre hbad hfits

/-- Claim C11 at an example: the second of three lines is padded and matches neither grammar;
`readFile` returns an error, and the error carries the trimmed text of that line. -/
theorem readFile_error_names_first_invalid_line_witness :
    (readFile (oneFile entryGarbageEntry ⟨5, 172⟩) initialFile).1 =
      .err (.errorString "Invalid line found: That really should not happen".toList) ∧
    ∃ pre l post, rawLines entryGarbageEntry = pre ++ l :: post ∧
      (∀ x ∈ pre, invalidLine x = false) ∧ invalidLine l = true ∧
      Error.errorString "Invalid line found: That really should not happen".toList =
        .errorString ("Invalid line found: ".toList ++ TrimSpace l) :=
  have herr : (readFile (oneFile entryGarbageEntry ⟨5, 172⟩) initialFile).1 =
      .err (.errorString "Invalid line found: That really should not happen".toList) := by
    decide
  ⟨herr,
    match readFile_error_names_first_invalid_line (oneFile entryGarbageEntry ⟨5, 172⟩)
      initialFile entryGarbageEntry _ rfl herr with
    | ⟨pre, l, post, h₁, h₂, h₃, h₄, _⟩ => ⟨pre, l, post, h₁, h₂, h₃, h₄⟩⟩

/-- Claim C12: `Reload` reparses the file if and only if the stat succeeds and the file's
modification time or size differs from the recorded ones: in that case it does what `readFile`
does, and otherwise its outcome does not depend on what reading the file would give and the
File is unchanged.  Consequently a change that keeps the modification time and the size is
missed: with the File opened on `validContent` and the file rewritten as `renamedContent`
(where `example1` has become `example3`) under the same metadata, `Reload` returns nil and the
users map stays the old one, though `Open` on the new file gives another map. -/
theorem reload_reparses_iff_metadata_changed :
    (∀ (fs₀ fs : FileSystem) (h : File) (stat : FileInfo), fs₀.Stat h.path = .ok stat →
      (stat.ModTime ≠ h.lastModified ∨ stat.Size ≠ h.lastSize) →
      Reload fs₀ fs h = readFile fs h) ∧
    (∀ (fs₀ : FileSystem) (h : File),
      ¬ (∃ stat, fs₀.Stat h.path = .ok stat ∧
        (stat.ModTime ≠ h.lastModified ∨ stat.Size ≠ h.lastSize)) →
      ∀ fs fs', Reload fs₀ fs h = Reload fs₀ fs' h ∧ (Reload fs₀ fs h).2 = h) ∧
    (renamedContent ≠ validContent ∧
      Open (oneFile validContent ⟨5, 152⟩) examplePath = .ok (exampleFile ⟨5, 152⟩) ∧
      Reload (oneFile renamedContent ⟨5, 152⟩) (oneFile renamedContent ⟨5, 152⟩)
        (exampleFile ⟨5, 152⟩) = (.ok (), exampleFile ⟨5, 152⟩) ∧
      Open (oneFile renamedContent ⟨5, 152⟩) examplePath ≠ .ok (exampleFile ⟨5, 152⟩)) := by
  refine ⟨Reload_changed, ?_, by decide, by decide, by decide, by decide⟩
  intro fs₀ h hno fs fs'
  cases hs : fs₀.Stat h.path with
  | error e => simp [Reload, hs]
  | ok stat =>
    have hsame : stat.ModTime = h.lastModified ∧ stat.Size = h.lastSize := by
      by_contra hc
      exact hno ⟨stat, hs, by tauto⟩
    rw [Reload_same_metadata fs₀ fs h stat hs hsame.1 hsame.2,
      Reload_same_metadata fs₀ fs' h stat hs hsame.1 hsame.2]
    exact ⟨rfl, rfl⟩

/-- Claim C13: `Authenticate` is a pure read: for every File, username and password, the File
after the call (users map, recorded modification time and size, path and CheckInterval) is the
File before it, whether the answer is true or false. -/
theorem authenticate_leaves_file (compare : Str → Str → Option Error) (h : File) (u p : Str) :
    (Authenticate compare h u p).2 = h ∧
    (Authenticate compare h u p).2.users = h.users ∧
    (Authenticate compare h u p).2.lastModified = h.lastModified ∧
    (Authenticate compare h u p).2.lastSize = h.lastSize ∧
    (Authenticate compare h u p).2.path = h.path ∧
    (Authenticate compare h u p).2.CheckInterval = h.CheckInterval :=
  ⟨rfl, rfl, rfl, rfl, rfl, rfl⟩

/-- Claim C15: for every line accepted by the credential grammar, `SplitN(line, ":", 2)` yields
exactly two parts, so both index expressions are in range; the first part is the username
(non-empty, matching the username grammar, without `:`), the second part is the hash (exactly
60 characters, matching the hash grammar, without `:`), and username, `:` and hash make up the
line. -/
theorem split_of_credential_line (line : Str) (hvalid : isValidLine bexp line = true) :
    ∃ u v, SplitN line ':' 2 = [u, v] ∧
      (SplitN line ':' 2)[0]? = some u ∧ (SplitN line ':' 2)[1]? = some v ∧
      u ≠ [] ∧ UsernameGrammar u ∧ ':' ∉ u ∧
      v.length = 60 ∧ HashGrammar v ∧ ':' ∉ v ∧
      u ++ ':' :: v = line := by
  obtain ⟨u, v, hline, hu, hv, hsplit⟩ := SplitN_of_valid hvalid
  refine ⟨u, v, hsplit, by rw [hsplit]; rfl, by rw [hsplit]; rfl, ?_, hu, username_no_colon hu,
    hash_length hv, hv, hash_no_colon hv, hline.symm⟩
  obtain ⟨c, us, rfl, _⟩ := hu
  simp

/-- Claim C15 at the first line of the test data. -/
theorem split_of_credential_line_witness :
    isValidLine bexp exampleLine1 = true ∧
    ∃ u v, SplitN exampleLine1 ':' 2 = [u, v] ∧
      (SplitN exampleLine1 ':' 2)[0]? = some u ∧ (SplitN exampleLine1 ':' 2)[1]? = some v ∧
      u ≠ [] ∧ UsernameGrammar u ∧ ':' ∉ u ∧
      v.length = 60 ∧ HashGrammar v ∧ ':' ∉ v ∧
      u ++ ':' :: v = exampleLine1 :=
  ⟨by decide, split_of_credential_line exampleLine1 (by decide)⟩

/-! ## The entries of the map -/

theorem toNat_le_of_le {a c : Char} (h : a ≤ c) : a.toNat ≤ c.toNat := by
  have := Char.le_def.1 h
  simpa [Char.toNat, UInt32.le_def] using this

theorem isSpace_bounds {c : Char} (h : IsSpace c = true) : c.toNat ≤ 32 ∨ 133 ≤ c.toNat := by
  simp only [IsSpace, Bool.or_eq_true, Bool.and_eq_true, decide_eq_true_eq, beq_iff_eq] at h
  omega

theorem isHashChar_bounds {c : Char} (h : isHashChar c = true) :
    46 ≤ c.toNat ∧ c.toNat ≤ 122 := by
  simp only [isHashChar, isLetter, isDigit, Bool.or_eq_true, Bool.and_eq_true,
    decide_eq_true_eq, beq_iff_eq] at h
  rcases h with (((⟨h₁, h₂⟩ | ⟨h₁, h₂⟩) | ⟨h₁, h₂⟩) | rfl) | rfl
  · have := toNat_le_of_le h₁
    have := toNat_le_of_le h₂
    have e₁ : ('a' : Char).toNat = 97 := by decide
    have e₂ : ('z' : Char).toNat = 122 := by decide
    omega
  · have := toNat_le_of_le h₁
    have := toNat_le_of_le h₂
    have e₁ : ('A' : Char).toNat = 65 := by decide
    have e₂ : ('Z' : Char).toNat = 90 := by decide
    omega
  · have := toNat_le_of_le h₁
    have := toNat_le_of_le h₂
    have e₁ : ('0' : Char).toNat = 48 := by decide
    have e₂ : ('9' : Char).toNat = 57 := by decide
    omega
  · decide
  · decide

theorem not_space_of_isHashChar {c : Char} (h : isHashChar c = true) : IsSpace c = false := by
  rw [Bool.eq_false_iff]
  intro hs
  have h₁ := isSpace_bounds hs
  have h₂ := isHashChar_bounds h
  omega

/-- The characters of a hash are `$` and characters of the payload class. -/
theorem hash_chars {v : Str} (h : HashGrammar v) :
    ∀ c ∈ v, c = '$' ∨ isHashChar c = true := by
  obtain ⟨tag, ds, p, rfl, htag, hd, hp⟩ := h
  intro c hmem
  simp only [List.mem_append, List.mem_cons] at hmem
  rcases hmem with (hmem | hmem) | hmem | hmem
  · have h₁ : "$2a$".toList = ['$', '2', 'a', '$'] := rfl
    have h₂ : "$2b$".toList = ['$', '2', 'b', '$'] := rfl
    have h₃ : "$2y$".toList = ['$', '2', 'y', '$'] := rfl
    rcases htag with rfl | rfl | rfl
    · rw [h₁] at hmem
      simp only [List.mem_cons, List.mem_singleton, List.not_mem_nil, or_false] at hmem
      rcases hmem with rfl | rfl | rfl | rfl <;> decide
    · rw [h₂] at hmem
      simp only [List.mem_cons, List.mem_singleton, List.not_mem_nil, or_false] at hmem
      rcases hmem with rfl | rfl | rfl | rfl <;> decide
    · rw [h₃] at hmem
      simp only [List.mem_cons, List.mem_singleton, List.not_mem_nil, or_false] at hmem
      rcases hmem with rfl | rfl | rfl | rfl <;> decide
  · right
    simp [isHashChar, hd.2 c hmem]
  · exact Or.inl hmem
  · exact Or.inr (hp.2 c hmem)

/-- A hash has no white space around it, nor inside. -/
theorem TrimSpace_hash {v : Str} (h : HashGrammar v) : TrimSpace v = v := by
  apply TrimSpace_eq_self
  intro c hc
  rcases hash_chars h c hc with rfl | hc
  · decide
  · exact not_space_of_isHashChar hc

theorem hash_ne_nil {v : Str} (h : HashGrammar v) : v ≠ [] := by
  intro hv
  have := hash_length h
  rw [hv] at this
  simp at this

theorem username_ne_nil {u : Str} (h : UsernameGrammar u) : u ≠ [] := by
  obtain ⟨c, us, rfl, _⟩ := h
  simp

theorem mem_of_lookup {m : Users} {k v : Str} (h : List.lookup k m = some v) : (k, v) ∈ m := by
  induction m with
  | nil => simp at h
  | cons e m ih =>
    obtain ⟨a, b⟩ := e
    by_cases hk : k = a
    · subst hk
      simp only [List.lookup, beq_self_eq_true, Option.some.injEq] at h
      subst h
      exact List.mem_cons_self _ _
    · have hk' : (k == a) = false := by simpa using hk
      simp only [List.lookup, hk'] at h
      exact List.mem_cons_of_mem _ (ih h)

theorem mapAssign_valid (m : Users) (k v : Str) (hm : ∀ e ∈ m, ValidEntry e)
    (hkv : ValidEntry (k, v)) : ∀ e ∈ mapAssign m k v, ValidEntry e := by
  intro e he
  rcases List.mem_cons.1 he with rfl | he
  · exact hkv
  · exact hm e (List.mem_of_mem_filter he)

/-- The loop keeps the entries valid. -/
theorem readLoop_valid (toks : List Str) (users users' : Users)
    (h : readLoop toks users = .ok users') (hu : ∀ e ∈ users, ValidEntry e) :
    ∀ e ∈ users', ValidEntry e := by
  induction toks generalizing users with
  | nil =>
    simp only [readLoop, Outcome.ok.injEq] at h
    subst h
    exact hu
  | cons text rest ih =>
    rcases line_cases text with hskip | ⟨hne, hc, hb⟩ | ⟨hne, hc, hb⟩
    · rw [readLoop_skip text rest users hskip] at h
      exact ih users h hu
    · obtain ⟨u₀, v₀, _, hu₀, hv₀, hsplit⟩ := SplitN_of_valid hb
      rw [readLoop_cred text rest users u₀ v₀ hne hc hb hsplit] at h
      exact ih _ h (mapAssign_valid users u₀ v₀ hu ⟨hu₀, hv₀⟩)
    · rw [readLoop_bad text rest users hne hc hb] at h
      exact absurd h (by simp)

/-- A call of `readFile` keeps the entries valid. -/
theorem readFile_valid (fs : FileSystem) (h : File) (hu : ∀ e ∈ h.users, ValidEntry e) :
    ∀ e ∈ (readFile fs h).2.users, ValidEntry e := by
  by_cases hok : (readFile fs h).1 = .ok ()
  · have hr : readFile fs h = (.ok (), (readFile fs h).2) := Prod.ext hok rfl
    obtain ⟨stat, content, users, _, _, hloop, hh⟩ := readFile_ok fs h _ hr
    rw [hh]
    exact readLoop_valid _ [] users hloop (by simp)
  · rw [readFile_unchanged fs h hok]
    exact hu

/-- The File after `Reload` is the File before it or the File after `readFile`. -/
theorem Reload_state (fs₀ fs : FileSystem) (h : File) :
    (Reload fs₀ fs h).2 = h ∨ (Reload fs₀ fs h).2 = (readFile fs h).2 := by
  cases hs : fs₀.Stat h.path with
  | error e => simp [Reload, hs]
  | ok stat =>
    by_cases hsame : stat.ModTime = h.lastModified ∧ stat.Size = h.lastSize
    · rw [Reload_same_metadata fs₀ fs h stat hs hsame.1 hsame.2]
      exact Or.inl rfl
    · rw [Reload_changed fs₀ fs h stat hs (by tauto)]
      exact Or.inr rfl

/-- The entries of a reachable File are valid. -/
theorem reachable_valid (h : File) (hr : Reachable h) : ∀ e ∈ h.users, ValidEntry e := by
  induction hr with
  | opened fs p h hok =>
    unfold Open at hok
    simp only at hok
    split at hok
    · rename_i h' hread
      simp only [Outcome.ok.injEq] at hok
      subst hok
      obtain ⟨stat, content, users, _, _, hloop, hh⟩ := readFile_ok _ _ _ hread
      rw [hh]
      exact readLoop_valid _ [] users hloop (by simp)
    · simp at hok
    · simp at hok
  | reloaded fs₀ fs h _ ih =>
    rcases Reload_state fs₀ fs h with hs | hs
    · rw [hs]
      exact ih
    · rw [hs]
      exact readFile_valid fs h ih
  | authenticated compare h u p _ ih => exact ih

/-- Claim C16: in every File state reachable by a successful `Open` followed by any sequence of
`Reload` and `Authenticate` calls against arbitrary backing-file states, every key of the users
map matches the username grammar and every value matches the hash grammar; the map never holds
an empty username, an empty hash, or a value with surrounding white space. -/
theorem reachable_users_match_grammars (h : File) (hr : Reachable h) :
    (∀ e ∈ h.users, UsernameGrammar e.1 ∧ HashGrammar e.2) ∧
    (∀ k v, List.lookup k h.users = some v → UsernameGrammar k ∧ HashGrammar v) ∧
    (∀ e ∈ h.users, e.1 ≠ [] ∧ e.2 ≠ [] ∧ TrimSpace e.2 = e.2) := by
  have hv := reachable_valid h hr
  refine ⟨hv, fun k v hl => hv (k, v) (mem_of_lookup hl), ?_⟩
  intro e he
  obtain ⟨h₁, h₂⟩ := hv e he
  exact ⟨username_ne_nil h₁, hash_ne_nil h₂, TrimSpace_hash h₂⟩

/-- Claim C16 at the example File, reached by `Open` on the example file. -/
theorem reachable_users_match_grammars_witness :
    Reachable (exampleFile ⟨5, 152⟩) ∧
    (∀ e ∈ (exampleFile ⟨5, 152⟩).users, UsernameGrammar e.1 ∧ HashGrammar e.2) :=
  have hr : Reachable (exampleFile ⟨5, 152⟩) :=
    Reachable.opened (oneFile validContent ⟨5, 152⟩) examplePath _ (by decide)
  ⟨hr, (reachable_users_match_grammars (exampleFile ⟨5, 152⟩) hr).1⟩

/-! ## Padding around lines -/

theorem isSpace_of_isPadding {c : Char} (h : isPadding c = true) : IsSpace c = true := by
  simp only [isPadding, Bool.or_eq_true, beq_iff_eq] at h
  rcases h with (rfl | rfl) | rfl <;> decide

theorem TrimSpace_cons_space (x : Char) (l : Str) (hx : IsSpace x = true) :
    TrimSpace (x :: l) = TrimSpace l := by
  simp [TrimSpace, List.dropWhile, hx]

theorem TrimSpace_append_left (a l : Str) (ha : ∀ c ∈ a, IsSpace c = true) :
    TrimSpace (a ++ l) = TrimSpace l := by
  induction a with
  | nil => rfl
  | cons x a ih =>
    rw [List.cons_append, TrimSpace_cons_space _ _ (ha x (List.mem_cons_self _ _))]
    exact ih fun c hc => ha c (List.mem_cons_of_mem _ hc)

theorem TrimSpace_append_right (l b : Str) (hb : ∀ c ∈ b, IsSpace c = true) :
    TrimSpace (l ++ b) = TrimSpace l := by
  induction b generalizing l with
  | nil => simp
  | cons x b ih =>
    have hsplit : l ++ x :: b = (l ++ [x]) ++ b := by simp
    rw [hsplit, ih (l ++ [x]) fun c hc => hb c (List.mem_cons_of_mem _ hc)]
    exact trim_concat_space l x (hb x (List.mem_cons_self _ _))

/-- Lines that differ only by padding are the same after trimming. -/
theorem TrimSpace_of_samePadding {l l' : Str} (h : SameUpToPadding l l') :
    TrimSpace l = TrimSpace l' := by
  obtain ⟨core, a, b, a', b', hpad, rfl, rfl⟩ := h
  have hs : ∀ c ∈ a ++ b ++ a' ++ b', IsSpace c = true :=
    fun c hc => isSpace_of_isPadding (hpad c hc)
  have ha : ∀ c ∈ a, IsSpace c = true := fun c hc => hs c (by simp [hc])
  have hb : ∀ c ∈ b, IsSpace c = true := fun c hc => hs c (by simp [hc])
  have ha' : ∀ c ∈ a', IsSpace c = true := fun c hc => hs c (by simp [hc])
  have hb' : ∀ c ∈ b', IsSpace c = true := fun c hc => hs c (by simp [hc])
  rw [TrimSpace_append_right _ _ hb, TrimSpace_append_left _ _ ha,
    TrimSpace_append_right _ _ hb', TrimSpace_append_left _ _ ha']

theorem map_TrimSpace_of_padded {ls ls' : List Str} (h : List.Forall₂ SameUpToPadding ls ls') :
    ls.map TrimSpace = ls'.map TrimSpace := by
  induction h with
  | nil => rfl
  | cons hl _ ih => simp [TrimSpace_of_samePadding hl, ih]

/-- The loop sees its lines only through their trimmed text. -/
theorem readLoop_congr_trim (toks toks' : List Str) (users : Users)
    (h : toks.map TrimSpace = toks'.map TrimSpace) :
    readLoop toks users = readLoop toks' users := by
  induction toks generalizing toks' users with
  | nil =>
    cases toks' with
    | nil => rfl
    | cons t' r' => simp at h
  | cons t r ih =>
    cases toks' with
    | nil => simp at h
    | cons t' r' =>
      simp only [List.map_cons, List.cons.injEq] at h
      obtain ⟨ht, hr⟩ := h
      rcases line_cases t with hskip | ⟨hne, hc, hb⟩ | ⟨hne, hc, hb⟩
      · rw [readLoop_skip t r users hskip, readLoop_skip t' r' users (by rw [← ht]; exact hskip)]
        exact ih r' users hr
      · obtain ⟨u₀, v₀, _, _, _, hsplit⟩ := SplitN_of_valid hb
        rw [readLoop_cred t r users u₀ v₀ hne hc hb hsplit,
          readLoop_cred t' r' users u₀ v₀ (by rw [← ht]; exact hne) (by rw [← ht]; exact hc)
            (by rw [← ht]; exact hb) (by rw [← ht]; exact hsplit)]
        exact ih r' _ hr
      · rw [readLoop_bad t r users hne hc hb,
          readLoop_bad t' r' users (by rw [← ht]; exact hne) (by rw [← ht]; exact hc)
            (by rw [← ht]; exact hb), ht]

/-- The loop gives the same outcome on two files that are padded alike, when all their lines
fit the buffer. -/
theorem readLoop_padded (content content' : Str) (hpad : PaddedAlike content content')
    (hfit : ∀ l ∈ rawLines content, len l < MaxScanTokenSize)
    (hfit' : ∀ l ∈ rawLines content', len l < MaxScanTokenSize) :
    readLoop (scanLines content) [] = readLoop (scanLines content') [] := by
  apply readLoop_congr_trim
  rw [scanLines_of_short content hfit, scanLines_of_short content' hfit', List.map_map,
    List.map_map]
  have h₁ : (rawLines content).map (TrimSpace ∘ dropCR) = (rawLines content).map TrimSpace :=
    List.map_congr_left fun l _ => TrimSpace_dropCR l
  have h₂ : (rawLines content').map (TrimSpace ∘ dropCR) = (rawLines content').map TrimSpace :=
    List.map_congr_left fun l _ => TrimSpace_dropCR l
  rw [h₁, h₂]
  exact map_TrimSpace_of_padded hpad

theorem len_append (a b : Str) : len (a ++ b) = len a + len b := by
  simp [len]

theorem trim_longComment (n : Nat) : TrimSpace (longComment n) = longComment n := by
  apply TrimSpace_eq_self
  intro c hc
  rcases List.mem_cons.1 hc with rfl | hc
  · decide
  · rw [List.eq_of_mem_replicate hc]
    decide

theorem cexp_longComment (n : Nat) : isValidLine cexp (longComment n) = true := by
  rw [cexp_iff]
  refine ⟨List.replicate n 'x', rfl, ?_⟩
  intro h
  exact absurd (List.eq_of_mem_replicate h) (by decide)

/-- Claim C17, amended: for two file contents that differ only by spaces, tabs and carriage
returns at the start and the end of their lines (as when LF line endings become CRLF), and
whose lines all fit the scanner's buffer (fewer than 65536 bytes), `readFile` has the same
outcome: the same nil or the same error, with the same trimmed text, on the same line (the
same lines are invalid), and the same users map, whose hashes are stored without padding. -/
theorem readFile_insensitive_to_padding (fs fs' : FileSystem) (h : File)
    (content content' : Str) (stat stat' : FileInfo)
    (hopen : fs.Open h.path = .ok content) (hopen' : fs'.Open h.path = .ok content')
    (hstat : fs.Stat h.path = .ok stat) (hstat' : fs'.Stat h.path = .ok stat')
    (hpad : PaddedAlike content content')
    (hfit : ∀ l ∈ rawLines content, len l < MaxScanTokenSize)
    (hfit' : ∀ l ∈ rawLines content', len l < MaxScanTokenSize) :
    (readFile fs h).1 = (readFile fs' h).1 ∧
    (readFile fs h).2.users = (readFile fs' h).2.users ∧
    (rawLines content).map invalidLine = (rawLines content').map invalidLine ∧
    ((readFile fs h).1 = .ok () → ∀ e ∈ (readFile fs h).2.users, TrimSpace e.2 = e.2) := by
  have hloop := readLoop_padded content content' hpad hfit hfit'
  have hinv : (rawLines content).map invalidLine = (rawLines content').map invalidLine := by
    have htrim := map_TrimSpace_of_padded hpad
    have hcomp : invalidLine = (fun t => t != [] && !isValidLine cexp t && !isValidLine bexp t) ∘
        TrimSpace := rfl
    rw [hcomp, ← List.map_map, ← List.map_map, htrim]
  cases hl : readLoop (scanLines content) [] with
  | err e =>
    have h₁ : readFile fs h = (.err e, h) := by simp [readFile, hopen, hl]
    have h₂ : readFile fs' h = (.err e, h) := by simp [readFile, hopen', ← hloop, hl]
    rw [h₁, h₂]
    exact ⟨rfl, rfl, hinv, fun hne => absurd hne (by simp)⟩
  | panic =>
    have h₁ : readFile fs h = (.panic, h) := by simp [readFile, hopen, hl]
    have h₂ : readFile fs' h = (.panic, h) := by simp [readFile, hopen', ← hloop, hl]
    rw [h₁, h₂]
    exact ⟨rfl, rfl, hinv, fun hne => absurd hne (by simp)⟩
  | ok users =>
    rw [readFile_of_ok fs h content stat users hopen hstat hl,
      readFile_of_ok fs' h content' stat' users hopen' hstat' (by rw [← hloop]; exact hl)]
    refine ⟨rfl, rfl, hinv, fun _ e he => ?_⟩
    exact TrimSpace_hash (readLoop_valid _ [] users hl (by simp) e he).2

/-- The amended claim C17 at an example: the example file and the same file with CRLF line
endings and other padding give the same users map. -/
theorem readFile_insensitive_to_padding_witness :
    PaddedAlike validContent repaddedContent ∧
    (readFile (oneFile validContent ⟨5, 152⟩) initialFile).2.users =
      (readFile (oneFile repaddedContent ⟨9, 157⟩) initialFile).2.users :=
  have hpad : PaddedAlike validContent repaddedContent := by
    have h₁ : rawLines validContent = ["# users".toList, [], exampleLine1 ++ ['\r'],
        [' ', ' '] ++ exampleLine2] := by decide
    have h₂ : rawLines repaddedContent = ["# users".toList ++ ['\r'], ['\t', '\r'],
        [' ', ' '] ++ exampleLine1, exampleLine2 ++ [' ', '\t', '\r']] := by decide
    unfold PaddedAlike
    rw [h₁, h₂]
    exact List.Forall₂.cons ⟨"# users".toList, [], [], [], ['\r'], by decide, by simp, by simp⟩
      (List.Forall₂.cons ⟨[], [], [], ['\t', '\r'], [], by decide, by simp, by simp⟩
        (List.Forall₂.cons ⟨exampleLine1, [], ['\r'], [' ', ' '], [], by decide, by simp, by simp⟩
          (List.Forall₂.cons
            ⟨exampleLine2, [' ', ' '], [], [], [' ', '\t', '\r'], by decide, by simp, by simp⟩
            List.Forall₂.nil)))
  ⟨hpad,
    (readFile_insensitive_to_padding (oneFile validContent ⟨5, 152⟩)
      (oneFile repaddedContent ⟨9, 157⟩) initialFile validContent repaddedContent ⟨5, 152⟩
      ⟨9, 157⟩ rfl rfl rfl rfl hpad (by decide) (by decide)).2.1⟩

/-- Claim C17 as stated fails: the first line of the file is a comment of 65535 bytes and the
second a valid entry; with a carriage return added at the end of the first line (LF turned
into CRLF) that line no longer fits the scanner's buffer, and `readFile`, which had read the
entry, now returns nil with an empty users map. -/
theorem padding_changes_outcome_at_buffer_limit :
    PaddedAlike fullCommentThenEntry fullCommentCRThenEntry ∧
    readFile (oneFile fullCommentThenEntry ⟨5, 65605⟩) initialFile =
      (.ok (), { initialFile with
        lastModified := 5, lastSize := 65605, users := [("example1".toList, exampleHash1)] }) ∧
    readFile (oneFile fullCommentCRThenEntry ⟨9, 65606⟩) initialFile =
      (.ok (), { initialFile with lastModified := 9, lastSize := 65606, users := [] }) := by
  have hentry : rawLines exampleLine1 = [exampleLine1] := by decide
  have hraw : rawLines fullCommentThenEntry = [longComment 65534, exampleLine1] := by
    unfold fullCommentThenEntry
    rw [rawLines_append_newline _ _ (longComment_no_newline _), hentry]
  have hnl : '\n' ∉ longComment 65534 ++ ['\r'] := by
    intro hmem
    rcases List.mem_append.1 hmem with hmem | hmem
    · exact longComment_no_newline _ hmem
    · exact absurd (List.mem_singleton.1 hmem) (by decide)
  have hraw' : rawLines fullCommentCRThenEntry =
      [longComment 65534 ++ ['\r'], exampleLine1] := by
    unfold fullCommentCRThenEntry
    rw [rawLines_append_newline _ _ hnl, hentry]
  have hlen : len (longComment 65534 ++ ['\r']) = 65536 := by
    rw [len_append, len_longComment]
    rfl
  have hfit : ∀ l ∈ rawLines fullCommentThenEntry, len l < MaxScanTokenSize := by
    intro l hl
    rw [hraw] at hl
    rcases List.mem_cons.1 hl with rfl | hl
    · rw [len_longComment]
      decide
    · rw [List.mem_singleton.1 hl]
      decide
  have hscan : scanLines fullCommentThenEntry =
      [dropCR (longComment 65534), dropCR exampleLine1] := by
    rw [scanLines_of_short _ hfit, hraw]
    rfl
  have hskip : isValidLine cexp (TrimSpace (dropCR (longComment 65534))) = true := by
    rw [TrimSpace_dropCR, trim_longComment]
    exact cexp_longComment _
  have hloop : readLoop (scanLines fullCommentThenEntry) [] =
      .ok [("example1".toList, exampleHash1)] := by
    rw [hscan, readLoop_skip _ _ _ (Or.inr hskip)]
    decide
  have hscan' : scanLines fullCommentCRThenEntry = [] :=
    scanLines_long_first _ _ hnl (by rw [hlen]; decide)
  have hloop' : readLoop (scanLines fullCommentCRThenEntry) [] = .ok [] := by
    rw [hscan']
    rfl
  refine ⟨?_, ?_, ?_⟩
  · unfold PaddedAlike
    rw [hraw, hraw']
    exact List.Forall₂.cons ⟨longComment 65534, [], [], [], ['\r'], by decide, by simp, by simp⟩
      (List.Forall₂.cons ⟨exampleLine1, [], [], [], [], by decide, by simp, by simp⟩
        List.Forall₂.nil)
  · exact readFile_of_ok _ initialFile fullCommentThenEntry ⟨5, 65605⟩ _ rfl rfl hloop
  · exact readFile_of_ok _ initialFile fullCommentCRThenEntry ⟨9, 65606⟩ _ rfl rfl hloop'

/-- Claim C6 as stated fails: the File holds `example1` and `example2`, and the backing file,
with another modification time and size, has a comment of 65536 bytes as its first line and a
valid entry for `example1` as its second; every line is well formed and `Reload` returns nil,
but the users map it installs is empty, though a line of the new content carries `example1`. -/
theorem reload_drops_entries_after_long_line :
    (oneFile longCommentThenEntry ⟨9, 65606⟩).Stat (exampleFile ⟨5, 152⟩).path =
      .ok ⟨9, 65606⟩ ∧
    (∀ l ∈ rawLines longCommentThenEntry, wellFormedLine l = true) ∧
    Reload (oneFile longCommentThenEntry ⟨9, 65606⟩) (oneFile longCommentThenEntry ⟨9, 65606⟩)
        (exampleFile ⟨5, 152⟩) =
      (.ok (), { exampleFile ⟨5, 152⟩ with lastModified := 9, lastSize := 65606, users := [] }) ∧
    (∃ l ∈ rawLines longCommentThenEntry,
      Carries (TrimSpace l) "example1".toList exampleHash1) ∧
    ¬ ReadsExactly (rawLines longCommentThenEntry) [] := by
  have hraw : rawLines longCommentThenEntry = [longComment 65535, exampleLine1] := by
    have h₁ : rawLines exampleLine1 = [exampleLine1] := by decide
    unfold longCommentThenEntry
    rw [rawLines_append_newline _ _ (longComment_no_newline _), h₁]
  have hscan : scanLines longCommentThenEntry = [] :=
    scanLines_long_first _ _ (longComment_no_newline _) (by rw [len_longComment]; decide)
  have hloop : readLoop (scanLines longCommentThenEntry) [] = .ok [] := by
    rw [hscan]
    rfl
  have hmem : exampleLine1 ∈ rawLines longCommentThenEntry := by
    rw [hraw]
    exact List.mem_cons_of_mem _ (List.mem_cons_self _ _)
  have hcar : Carries (TrimSpace exampleLine1) "example1".toList exampleHash1 :=
    ⟨by decide, by decide⟩
  refine ⟨rfl, ?_, ?_, ⟨exampleLine1, hmem, hcar⟩, ?_⟩
  · intro l hl
    rw [hraw] at hl
    rcases List.mem_cons.1 hl with rfl | hl
    · exact wellFormed_longComment _
    · rw [List.mem_singleton.1 hl]
      decide
  · rw [Reload_changed _ _ (exampleFile ⟨5, 152⟩) ⟨9, 65606⟩ rfl (by decide)]
    exact readFile_of_ok _ (exampleFile ⟨5, 152⟩) longCommentThenEntry ⟨9, 65606⟩ [] rfl rfl hloop
  · rintro ⟨hkeys, _⟩
    have := (hkeys "example1".toList).2 ⟨exampleLine1, hmem, exampleHash1, hcar⟩
    exact absurd this (by decide)

end Htpasswd
